import Mathlib

/-!
Verification development for the v2go proxy-config aggregation pipeline.

The Go sources are shallowly embedded as executable Lean definitions:
pure functions become Lean functions, the scanner's mutable state becomes
explicit state passing, and network effects (HTTP fetch, TCP dial) are
abstracted as function parameters supplying their observable results.
-/

namespace V2Go

/-! ### Go string primitives (strings.TrimSpace, strings.HasPrefix) -/

/-- Whitespace predicate of Go's `unicode.IsSpace`, used by `strings.TrimSpace`:
`\t \n \v \f \r space` plus NEL, NBSP and the Unicode space separators. -/
def goIsSpace (c : Char) : Bool :=
  c.val = 9 ∨ c.val = 10 ∨ c.val = 11 ∨ c.val = 12 ∨ c.val = 13 ∨ c.val = 32 ∨
  c.val = 0x85 ∨ c.val = 0xA0 ∨ c.val = 0x1680 ∨
  (0x2000 ≤ c.val ∧ c.val ≤ 0x200A) ∨
  c.val = 0x2028 ∨ c.val = 0x2029 ∨ c.val = 0x202F ∨ c.val = 0x205F ∨ c.val = 0x3000

/-- Model of Go `strings.TrimSpace`: remove leading and trailing whitespace. -/
def goTrimSpace (s : String) : String :=
  String.mk (((s.data.dropWhile goIsSpace).reverse.dropWhile goIsSpace).reverse)

/-- Model of Go `strings.HasPrefix s p` (character-list based so that it is
kernel-evaluable). -/
def goHasPfx (p s : String) : Bool :=
  p.data.isPrefixOf s.data

/-! ### main.go: the aggregator (src/unnamed/part_000) -/

/-- The fixed protocol table `protocols` of main.go. -/
def protocols : List String :=
  ["vmess", "vless", "trojan", "ss", "ssr", "hy2", "tuic", "warp://"]

/-- The chunk bound `maxLinesPerFile` of main.go. -/
def maxLinesPerFile : Nat := 500

/-- First protocol of the table that is a prefix of `line` (the `break` in the
inner loop of `filterForProtocols` keeps only the first match). -/
def firstProto (protos : List String) (line : String) : Option String :=
  protos.find? (fun p => goHasPfx p line)

/-- The loop body of `filterForProtocols`: walks the input lines carrying the
accumulated `filtered` output and the `seen` set (a Go map used as a set). -/
def filterLoop (protos : List String) :
    List String → List String → List String → List String
  | [], filtered, _ => filtered
  | line0 :: rest, filtered, seen =>
    let line := goTrimSpace line0
    if line = "" then
      filterLoop protos rest filtered seen
    else if line ∈ seen then
      filterLoop protos rest filtered seen
    else
      match firstProto protos line with
      | some _ => filterLoop protos rest (filtered ++ [line]) (line :: seen)
      | none => filterLoop protos rest filtered seen

/-- Model of `filterForProtocols(data, protocols)` from main.go: trim each
line, drop empties, keep first occurrences of lines starting with a
recognized protocol. -/
def filterForProtocols (data : List String) (protos : List String) : List String :=
  filterLoop protos data [] []

/-- Model of `splitIntoFiles` from main.go, restricted to the chunk contents
it writes: the deduplicated config list is reversed; file `i` (0-based,
named `Sub(i+1).txt`) receives the window
`reversedConfigs[i*maxLinesPerFile : min((i+1)*maxLinesPerFile, len)]`. -/
def splitIntoFiles (configs : List String) : List (List String) :=
  let numFiles := (configs.length + maxLinesPerFile - 1) / maxLinesPerFile
  let reversedConfigs := configs.reverse
  (List.range numFiles).map
    (fun i => (reversedConfigs.drop (i * maxLinesPerFile)).take maxLinesPerFile)

/-! ### Go standard-library models used by the scanner

The scanner works on Go strings (byte slices); the embedding uses `List Char`
with all inputs of interest ASCII, so characters and bytes coincide. -/

/-- One 6-bit value of the standard base64 alphabet. -/
def b64Idx (c : Char) : Option Nat :=
  if 'A' ≤ c ∧ c ≤ 'Z' then some (c.toNat - 65)
  else if 'a' ≤ c ∧ c ≤ 'z' then some (c.toNat - 97 + 26)
  else if '0' ≤ c ∧ c ≤ '9' then some (c.toNat - 48 + 52)
  else if c = '+' then some 62
  else if c = '/' then some 63
  else none

/-- 4-character quanta of Go's `base64.StdEncoding` decoder: `=` padding is
accepted only at the end of the input (one or two characters), anything else
is a `CorruptInputError` (modelled as `none`). -/
def b64Quanta : List Char → Option (List Nat)
  | [] => some []
  | c1 :: c2 :: c3 :: c4 :: rest =>
    match b64Idx c1, b64Idx c2 with
    | some v1, some v2 =>
      if c3 = '=' then
        if c4 = '=' ∧ rest = [] then some [v1 * 4 + v2 / 16] else none
      else
        match b64Idx c3 with
        | some v3 =>
          if c4 = '=' then
            if rest = [] then some [v1 * 4 + v2 / 16, v2 % 16 * 16 + v3 / 4] else none
          else
            match b64Idx c4 with
            | some v4 =>
              (b64Quanta rest).map
                (fun bs => (v1 * 4 + v2 / 16) :: (v2 % 16 * 16 + v3 / 4) ::
                  ((v3 % 4 * 64 + v4) :: bs))
            | none => none
        | none => none
    | _, _ => none
  | _ => none

/-- Model of Go `base64.StdEncoding.DecodeString`: newline bytes are skipped,
then the input is decoded in 4-character quanta; the result is a byte list. -/
def decodeBase64Std (s : String) : Option (List Nat) :=
  b64Quanta (s.data.filter (fun c => ¬(c = '\r' ∨ c = '\n')))

/-- Go `strings.TrimPrefix`. -/
def goTrimPfxStr (s p : String) : String :=
  if goHasPfx p s then String.mk (s.data.drop p.data.length) else s

/-- The explicit `=`-padding step of `decodeVMess` and `decodeBase64` in the
sources: pad to a multiple of 4 characters. -/
def padB64 (s : String) : String :=
  if s.data.length % 4 ≠ 0 then
    s ++ String.mk (List.replicate (4 - s.data.length % 4) '=')
  else s

/-- Decimal digit test. -/
def isDigit (c : Char) : Bool := '0' ≤ c ∧ c ≤ '9'

/-- Numeric value of a digit list (most significant first). -/
def digitsToNat : List Char → Nat → Nat
  | [], acc => acc
  | c :: cs, acc => digitsToNat cs (acc * 10 + (c.toNat - 48))

/-- Model of Go `strconv.Atoi`: optional sign then decimal digits; a syntax
error yields 0 (the callers discard the error, keeping the zero value), an
out-of-range value is clamped to the int64 bounds as `Atoi` does. -/
def goAtoi (s : String) : Int :=
  let (neg, ds) : Bool × List Char :=
    match s.data with
    | '-' :: rest => (true, rest)
    | '+' :: rest => (false, rest)
    | rest => (false, rest)
  if ds = [] ∨ ¬ ds.all isDigit then 0
  else
    let n : Int := (digitsToNat ds 0 : Nat)
    if neg then
      if -n < -(2 ^ 63) then -(2 ^ 63) else -n
    else
      if n > 2 ^ 63 - 1 then 2 ^ 63 - 1 else n

/-! ### JSON (encoding/json) model for `decodeVMess` -/

/-- JSON values as produced by `json.Unmarshal` into `map[string]interface{}`.
A number is kept exactly as `mantissa * 10 ^ exp10` (Go parses into a
`float64`; the conversion `int(f)` below is exact for the integral values in
range that occur as ports). -/
inductive Json where
  | null : Json
  | bool : Bool → Json
  | num : Int → Int → Json
  | str : String → Json
  | arr : List Json → Json
  | obj : List (String × Json) → Json

/-- Go's `int(f)` conversion of a decoded JSON number: truncation toward 0. -/
def jnumToGoInt (m e : Int) : Int :=
  if 0 ≤ e then m * 10 ^ e.toNat else Int.tdiv m (10 ^ (-e).toNat)

/-- Field lookup in a decoded object: a Go map keeps the last value written
for a key, so later duplicate keys win. -/
def jlookup (fields : List (String × Json)) (k : String) : Option Json :=
  (fields.reverse.find? (fun kv => kv.1 = k)).map (·.2)

/-- JSON whitespace. -/
def jIsWs (c : Char) : Bool := c = ' ' ∨ c = '\t' ∨ c = '\n' ∨ c = '\r'

def jskipWs (cs : List Char) : List Char := cs.dropWhile jIsWs

/-- Hex digit value. -/
def hexVal (c : Char) : Option Nat :=
  if '0' ≤ c ∧ c ≤ '9' then some (c.toNat - 48)
  else if 'a' ≤ c ∧ c ≤ 'f' then some (c.toNat - 97 + 10)
  else if 'A' ≤ c ∧ c ≤ 'F' then some (c.toNat - 65 + 10)
  else none

/-- Character from a code point, with `Char.ofNat`'s guard (an invalid
code point gives the null character). -/
def charOfCode (n : Nat) : Char := Char.ofNat n

/-- The four-hex-digit part of a `\u` escape. -/
def jGetU4 : List Char → Option (Nat × List Char)
  | c1 :: c2 :: c3 :: c4 :: rest =>
    match hexVal c1, hexVal c2, hexVal c3, hexVal c4 with
    | some a, some b, some c, some d => some (((a * 16 + b) * 16 + c) * 16 + d, rest)
    | _, _, _, _ => none
  | _ => none

/-- String body scanner of the JSON decoder: standard escapes, `\u` escapes
with surrogate-pair combination and U+FFFD for unpaired surrogates, and
rejection of raw control characters, as `encoding/json` does. -/
def jString (fuel : Nat) (cs : List Char) (acc : List Char) :
    Option (String × List Char) :=
  match fuel with
  | 0 => none
  | fuel + 1 =>
    match cs with
    | [] => none
    | '"' :: rest => some (String.mk acc.reverse, rest)
    | '\\' :: esc :: rest =>
      match esc with
      | '"' => jString fuel rest ('"' :: acc)
      | '\\' => jString fuel rest ('\\' :: acc)
      | '/' => jString fuel rest ('/' :: acc)
      | 'b' => jString fuel rest (charOfCode 8 :: acc)
      | 'f' => jString fuel rest (charOfCode 12 :: acc)
      | 'n' => jString fuel rest ('\n' :: acc)
      | 'r' => jString fuel rest ('\r' :: acc)
      | 't' => jString fuel rest ('\t' :: acc)
      | 'u' =>
        match jGetU4 rest with
        | none => none
        | some (n, rest') =>
          if 0xd800 ≤ n ∧ n < 0xe000 then
            match rest' with
            | '\\' :: 'u' :: rest'' =>
              match jGetU4 rest'' with
              | some (n2, rest3) =>
                if 0xd800 ≤ n ∧ n < 0xdc00 ∧ 0xdc00 ≤ n2 ∧ n2 < 0xe000 then
                  jString fuel rest3
                    (charOfCode ((n - 0xd800) * 0x400 + (n2 - 0xdc00) + 0x10000) :: acc)
                else jString fuel rest' (charOfCode 0xfffd :: acc)
              | none => jString fuel rest' (charOfCode 0xfffd :: acc)
            | _ => jString fuel rest' (charOfCode 0xfffd :: acc)
          else jString fuel rest' (charOfCode n :: acc)
      | _ => none
    | c :: rest =>
      if c.toNat < 0x20 then none else jString fuel rest (c :: acc)

/-- JSON number: `-? int frac? exp?` with the no-leading-zero rule. Returns
the exact value as mantissa and decimal exponent. -/
def jNumber (cs : List Char) : Option (Int × Int × List Char) :=
  let (neg, cs1) : Bool × List Char :=
    match cs with
    | '-' :: rest => (true, rest)
    | rest => (false, rest)
  let intPart := cs1.takeWhile isDigit
  let cs2 := cs1.dropWhile isDigit
  if intPart = [] then none
  else if intPart.length > 1 ∧ intPart.head? = some '0' then none
  else
    let m0 : Int := (digitsToNat intPart 0 : Nat)
    let (m1, e1, cs3) : Int × Int × List Char :=
      match cs2 with
      | '.' :: rest =>
        let fr := rest.takeWhile isDigit
        (m0 * (10 : Int) ^ fr.length + (digitsToNat fr 0 : Nat),
          -(fr.length : Int), rest.dropWhile isDigit)
      | _ => (m0, 0, cs2)
    -- a dot with no digits is a syntax error
    if cs2.head? = some '.' ∧ (cs2.drop 1).head? ≠ some '0' ∧
        ¬ ((cs2.drop 1).headD 'x' |> isDigit) then none
    else
      match cs3 with
      | 'e' :: rest | 'E' :: rest =>
        let (eneg, rest1) : Bool × List Char :=
          match rest with
          | '-' :: r => (true, r)
          | '+' :: r => (false, r)
          | r => (false, r)
        let ds := rest1.takeWhile isDigit
        if ds = [] then none
        else
          let ev : Int := (digitsToNat ds 0 : Nat)
          some (if neg then -m1 else m1, e1 + (if eneg then -ev else ev),
            rest1.dropWhile isDigit)
      | _ => some (if neg then -m1 else m1, e1, cs3)

mutual

/-- JSON value parser (recursive descent, fuel-bounded). -/
def jValue (fuel : Nat) (cs : List Char) : Option (Json × List Char) :=
  match fuel with
  | 0 => none
  | fuel + 1 =>
    match jskipWs cs with
    | 'n' :: 'u' :: 'l' :: 'l' :: rest => some (Json.null, rest)
    | 't' :: 'r' :: 'u' :: 'e' :: rest => some (Json.bool true, rest)
    | 'f' :: 'a' :: 'l' :: 's' :: 'e' :: rest => some (Json.bool false, rest)
    | '"' :: rest =>
      (jString (rest.length + 1) rest []).map (fun (s, r) => (Json.str s, r))
    | '{' :: rest =>
      match jskipWs rest with
      | '}' :: rest' => some (Json.obj [], rest')
      | _ => (jMembers fuel rest []).map (fun (fs, r) => (Json.obj fs, r))
    | '[' :: rest =>
      match jskipWs rest with
      | ']' :: rest' => some (Json.arr [], rest')
      | _ => (jElements fuel rest []).map (fun (es, r) => (Json.arr es, r))
    | rest =>
      (jNumber rest).map (fun (m, e, r) => (Json.num m e, r))

/-- Members of a JSON object, after the opening brace. -/
def jMembers (fuel : Nat) (cs : List Char) (acc : List (String × Json)) :
    Option (List (String × Json) × List Char) :=
  match fuel with
  | 0 => none
  | fuel + 1 =>
    match jskipWs cs with
    | '"' :: rest =>
      match jString (rest.length + 1) rest [] with
      | none => none
      | some (k, rest1) =>
        match jskipWs rest1 with
        | ':' :: rest2 =>
          match jValue fuel rest2 with
          | none => none
          | some (v, rest3) =>
            match jskipWs rest3 with
            | ',' :: rest4 => jMembers fuel rest4 (acc ++ [(k, v)])
            | '}' :: rest4 => some (acc ++ [(k, v)], rest4)
            | _ => none
        | _ => none
    | _ => none

/-- Elements of a JSON array, after the opening bracket. -/
def jElements (fuel : Nat) (cs : List Char) (acc : List Json) :
    Option (List Json × List Char) :=
  match fuel with
  | 0 => none
  | fuel + 1 =>
    match jValue fuel cs with
    | none => none
    | some (v, rest) =>
      match jskipWs rest with
      | ',' :: rest1 => jElements fuel rest1 (acc ++ [v])
      | ']' :: rest1 => some (acc ++ [v], rest1)
      | _ => none

end

/-- Model of `json.Unmarshal(data, &config)` for
`config map[string]interface{}`: the document must be a single object
followed only by whitespace; any parse failure or non-object document is an
error (`none`). -/
def jsonUnmarshalObj (bytes : List Nat) : Option (List (String × Json)) :=
  let cs := bytes.map charOfCode
  match jValue (cs.length + 1) cs with
  | some (Json.obj fields, rest) =>
    if jskipWs rest = [] then some fields else none
  | _ => none

/-! ### net/url model (`url.Parse`, `Hostname`, `Port`) -/

/-- Result of `url.Parse` restricted to the fields the scanner reads plus the
ones whose parsing can fail. `opq` is the `Opaque` component. -/
structure GoURL where
  scheme : String := ""
  opq : String := ""
  hasUser : Bool := false
  host : String := ""
  path : String := ""
  rawQuery : String := ""
  forceQuery : Bool := false
  fragment : String := ""

/-- Go `strings.Cut` at the first occurrence of a character, dropping it
(`split(s, c, true)` in net/url). -/
def cutChar (s : String) (c : Char) : String × String :=
  let before := s.data.takeWhile (fun x => x ≠ c)
  let after := s.data.dropWhile (fun x => x ≠ c)
  match after with
  | [] => (s, "")
  | _ :: rest => (String.mk before, String.mk rest)

/-- Model of `split(s, c, false)` of net/url: the separator stays in the second part. -/
def cutCharKeep (s : String) (c : Char) : String × String :=
  let before := s.data.takeWhile (fun x => x ≠ c)
  let after := s.data.dropWhile (fun x => x ≠ c)
  (String.mk before, String.mk after)

/-- Model of `stringContainsCTLByte`: any byte below 0x20 or equal to 0x7f. -/
def containsCTL (s : String) : Bool :=
  s.data.any (fun c => c.toNat < 0x20 ∨ c.toNat = 0x7f)

def isAsciiLetter (c : Char) : Bool :=
  ('a' ≤ c ∧ c ≤ 'z') ∨ ('A' ≤ c ∧ c ≤ 'Z')

def asciiLower (s : String) : String :=
  String.mk (s.data.map (fun c =>
    if 'A' ≤ c ∧ c ≤ 'Z' then charOfCode (c.toNat + 32) else c))

/-- Model of `getScheme` of net/url: `none` models the "missing protocol scheme"
error (a `:` in position 0); otherwise returns scheme and remainder, with an
empty scheme when the string does not start `alpha (alnum | + | - | .)* :`. -/
def getSchemeLoop (orig : List Char) : Nat → List Char → Option (String × String)
  | _, [] => some ("", String.mk orig)
  | i, c :: rest =>
    if isAsciiLetter c then getSchemeLoop orig (i + 1) rest
    else if isDigit c ∨ c = '+' ∨ c = '-' ∨ c = '.' then
      if i = 0 then some ("", String.mk orig) else getSchemeLoop orig (i + 1) rest
    else if c = ':' then
      if i = 0 then none
      else some (String.mk (orig.take i), String.mk (orig.drop (i + 1)))
    else some ("", String.mk orig)

def getScheme (s : String) : Option (String × String) :=
  getSchemeLoop s.data 0 s.data

/-- Escaping contexts of net/url's `unescape` that the scanner can reach. -/
inductive EscMode where
  | host : EscMode
  | path : EscMode
  | fragment : EscMode
  | userinfo : EscMode
deriving DecidableEq

/-- net/url `unescape`: percent-escapes must be two hex digits; in the host
component an escaped ASCII byte other than `%25` is rejected. -/
def unescapeLoop (mode : EscMode) : List Char → List Char → Option (List Char)
  | [], acc => some acc.reverse
  | '%' :: c1 :: c2 :: rest, acc =>
    match hexVal c1, hexVal c2 with
    | some h1, some h2 =>
      if mode = EscMode.host ∧ h1 < 8 ∧ ¬(c1 = '2' ∧ c2 = '5') then none
      else unescapeLoop mode rest (charOfCode (h1 * 16 + h2) :: acc)
    | _, _ => none
  | '%' :: _, _ => none
  | c :: rest, acc => unescapeLoop mode rest (c :: acc)

def goUnescape (s : String) (mode : EscMode) : Option String :=
  (unescapeLoop mode s.data []).map String.mk

/-- Index of the last occurrence of a character. -/
def lastIdxOf (l : List Char) (c : Char) : Option Nat :=
  match (l.reverse.findIdx? (fun x => x = c)) with
  | none => none
  | some j => some (l.length - 1 - j)

/-- Model of `validOptionalPort`: empty, or `:` followed by decimal digits only. -/
def validOptionalPort (p : String) : Bool :=
  match p.data with
  | [] => true
  | ':' :: digits => digits.all isDigit
  | _ => false

/-- Model of `validUserinfo` of net/url. -/
def validUserinfo (s : String) : Bool :=
  s.data.all (fun r =>
    isAsciiLetter r ∨ isDigit r ∨
    r = '-' ∨ r = '.' ∨ r = '_' ∨ r = ':' ∨ r = '~' ∨ r = '!' ∨ r = '$' ∨
    r = '&' ∨ r = '\'' ∨ r = '(' ∨ r = ')' ∨ r = '*' ∨ r = '+' ∨ r = ',' ∨
    r = ';' ∨ r = '=' ∨ r = '%' ∨ r = '@')

/-- Model of `parseHost` of net/url: bracketed IPv6 or plain host, with the
`validOptionalPort` check on a trailing `:port` and percent-unescaping in
host mode. -/
def parseHost (host : String) : Option String :=
  if goHasPfx "[" host then
    match lastIdxOf host.data ']' with
    | none => none
    | some i =>
      let colonPort := String.mk (host.data.drop (i + 1))
      if ¬ validOptionalPort colonPort then none
      else goUnescape host EscMode.host
  else
    match lastIdxOf host.data ':' with
    | some i =>
      let colonPort := String.mk (host.data.drop i)
      if ¬ validOptionalPort colonPort then none
      else goUnescape host EscMode.host
    | none => goUnescape host EscMode.host

/-- Model of `parseAuthority`: split at the last `@`; the host is parsed first, then
the userinfo is validated and unescaped (its value is unused downstream, only
whether one is present and whether it errors matters here). -/
def parseAuthority (authority : String) : Option (Bool × String) :=
  match lastIdxOf authority.data '@' with
  | none => (parseHost authority).map (fun h => (false, h))
  | some i =>
    let userinfo := String.mk (authority.data.take i)
    let hostPart := String.mk (authority.data.drop (i + 1))
    match parseHost hostPart with
    | none => none
    | some h =>
      if ¬ validUserinfo userinfo then none
      else if ¬ (userinfo.data.contains ':') then
        match goUnescape userinfo EscMode.userinfo with
        | none => none
        | some _ => some (true, h)
      else
        let (username, password) := cutChar userinfo ':'
        match goUnescape username EscMode.userinfo,
            goUnescape password EscMode.userinfo with
        | some _, some _ => some (true, h)
        | _, _ => none

/-- The body of net/url `parse` (with `viaRequest = false`): control-byte
check, scheme, the `ForceQuery`/query split, then either an opaque rest, an
authority + path, or a bare path. -/
def urlParseInner (rawURL : String) : Option GoURL :=
  if containsCTL rawURL then none
  else
    match getScheme rawURL with
    | none => none
    | some (scheme0, rest0) =>
      let scheme := asciiLower scheme0
      let fq : Bool := rest0.data.getLast? = some '?' ∧
        ¬ (rest0.data.dropLast.contains '?')
      let rest := if fq then String.mk rest0.data.dropLast else (cutChar rest0 '?').1
      let rawQuery := if fq then "" else (cutChar rest0 '?').2
      if ¬ goHasPfx "/" rest then
        if scheme ≠ "" then
          some { scheme := scheme, opq := rest, rawQuery := rawQuery, forceQuery := fq }
        else
          let segment := rest.data.takeWhile (fun x => x ≠ '/')
          if segment.contains ':' then none
          else
            match goUnescape rest EscMode.path with
            | none => none
            | some p =>
              some { path := p, rawQuery := rawQuery, forceQuery := fq }
      else
        if (scheme ≠ "" ∨ ¬ goHasPfx "///" rest) ∧ goHasPfx "//" rest then
          let after := String.mk (rest.data.drop 2)
          let (authority, rest2) := cutCharKeep after '/'
          match parseAuthority authority with
          | none => none
          | some (hu, host) =>
            match goUnescape rest2 EscMode.path with
            | none => none
            | some p =>
              some ({ scheme := scheme, hasUser := hu, host := host,
                        path := p, rawQuery := rawQuery, forceQuery := fq } : GoURL)
        else
          match goUnescape rest EscMode.path with
          | none => none
          | some p =>
            some { scheme := scheme, path := p, rawQuery := rawQuery, forceQuery := fq }

/-- Model of `url.Parse`: the fragment is cut at the first `#` before the
rest is parsed, and percent-unescaped afterwards (an invalid escape in the
fragment fails the whole parse). -/
def goUrlParse (rawURL : String) : Option GoURL :=
  let (u, frag) := cutChar rawURL '#'
  match urlParseInner u with
  | none => none
  | some url =>
    if frag = "" then some url
    else
      match goUnescape frag EscMode.fragment with
      | none => none
      | some f => some { url with fragment := f }

/-- Model of `splitHostPort` backing `URL.Hostname` and `URL.Port`: strip a valid
`:port` suffix, then surrounding brackets. -/
def splitHostPort (hostPort : String) : String × String :=
  let stripBrackets : String → String := fun h =>
    if goHasPfx "[" h ∧ h.data.getLast? = some ']' then
      String.mk (h.data.drop 1).dropLast
    else h
  match lastIdxOf hostPort.data ':' with
  | some colon =>
    if validOptionalPort (String.mk (hostPort.data.drop colon)) then
      (stripBrackets (String.mk (hostPort.data.take colon)),
        String.mk (hostPort.data.drop (colon + 1)))
    else (stripBrackets hostPort, "")
  | none => (stripBrackets hostPort, "")

/-! ### scanner.go: decoders and link processing -/

/-- Go `strings.TrimSuffix`. -/
def goTrimSfx (s suffix : String) : String :=
  if suffix.data.isSuffixOf s.data then
    String.mk (s.data.take (s.data.length - suffix.data.length))
  else s

/-- Structure `ConfigInfo` of scanner.go. -/
structure ConfigInfo where
  Link : String
  Remark : String
  Latency : Int
  Host : String
  Port : Int
deriving DecidableEq, Inhabited

/-- Decoder result quadruple `(host, port, remark, protocol)`. -/
abbrev Decoded := String × Int × String × String

/-- Model of `decodeVMess`: strip the prefix, pad to a multiple of 4, base64-decode,
JSON-parse into a loose object; `host` from field `add` when it is a string,
`port` from field `port` as either a number or a numeric string, `remark`
from field `ps`; any decode or parse failure leaves the zero values. -/
def decodeVMess (link : String) : Decoded :=
  let protocol := "vmess"
  let encoded := goTrimPfxStr link "vmess://"
  match decodeBase64Std (padB64 encoded) with
  | none => ("", 0, "", protocol)
  | some bytes =>
    match jsonUnmarshalObj bytes with
    | none => ("", 0, "", protocol)
    | some fields =>
      let host := match jlookup fields "add" with
        | some (Json.str s) => s
        | _ => ""
      let port : Int := match jlookup fields "port" with
        | some (Json.num m e) => jnumToGoInt m e
        | some (Json.str s) => goAtoi s
        | _ => 0
      let remark := match jlookup fields "ps" with
        | some (Json.str s) => s
        | _ => ""
      (host, port, remark, protocol)

/-- Model of `decodeGeneric`: parse as a URL; hostname and port from the authority
(absent port gives 0), remark from the fragment with the `NoRemark` default;
a parse error leaves the zero values. -/
def decodeGeneric (link pfx : String) : Decoded :=
  let protocol := goTrimSfx pfx "://"
  match goUrlParse link with
  | none => ("", 0, "", protocol)
  | some u =>
    let host := (splitHostPort u.host).1
    let portStr := (splitHostPort u.host).2
    let port : Int := if portStr ≠ "" then goAtoi portStr else 0
    let remark := if u.fragment = "" then "NoRemark" else u.fragment
    (host, port, remark, protocol)

def decodeVLess (link : String) : Decoded := decodeGeneric link "vless://"

def decodeTrojan (link : String) : Decoded := decodeGeneric link "trojan://"

def decodeSS (link : String) : Decoded := decodeGeneric link "ss://"

/-- Model of `decodeLink`: dispatch on the link prefix; unrecognized prefixes give the
zero quadruple. -/
def decodeLink (link : String) : Decoded :=
  if goHasPfx "vmess://" link then decodeVMess link
  else if goHasPfx "vless://" link then decodeVLess link
  else if goHasPfx "trojan://" link then decodeTrojan link
  else if goHasPfx "ss://" link then decodeSS link
  else ("", 0, "", "")

/-- The scanner state: latency flag and the per-protocol results map. -/
structure Scanner where
  enableLatency : Bool
  results : String → List ConfigInfo

/-- Model of `measureLatency`: the TCP dial is abstracted by its observable outcome,
`none` for a failed dial and `some elapsedNs` for a successful one; the
reported latency is whole milliseconds (`time.Duration.Milliseconds`),
so a sub-millisecond dial reports 0. A failure reports -1. -/
def measureLatency (dialElapsedNs : Option Nat) : Int :=
  match dialElapsedNs with
  | none => -1
  | some elapsedNs => (elapsedNs / 1000000 : Nat)

/-- Model of `processLink`: decode, reject empty host or zero port, optionally probe
and reject failed or >800 ms probes, then append to the protocol's list. -/
def processLink (s : Scanner) (dial : String → Int → Option Nat)
    (link : String) : Scanner :=
  let d := decodeLink link
  let host := d.1
  let port := d.2.1
  let remark := d.2.2.1
  let protocol := d.2.2.2
  if host = "" ∨ port = 0 then s
  else
    let latency : Int := if s.enableLatency then measureLatency (dial host port) else 0
    if s.enableLatency ∧ (latency = -1 ∨ latency > 800) then s
    else
      { s with results := fun q =>
          if q = protocol then
            s.results q ++ [⟨link, remark, latency, host, port⟩]
          else s.results q }

/-- The output line `link # remark` of `SaveResults`. -/
def formatLine (c : ConfigInfo) : String :=
  c.Link ++ " # " ++ c.Remark

/-- The latency-annotated output line `link # remark - N ms`. -/
def annotateLine (c : ConfigInfo) : String :=
  formatLine c ++ " - " ++ toString c.Latency ++ " ms"

/-- The fast/normal split loop of `SaveResults` over one protocol group (in
slice order): positive latency below 200 goes to `fast` with annotation, at
least 200 to `normal` with annotation, and non-positive latency (never
measured, or measured as 0 ms) to `normal` without annotation. -/
def partitionLoop : List ConfigInfo → List String × List String
  | [] => ([], [])
  | c :: rest =>
    let (fast, normal) := partitionLoop rest
    if c.Latency > 0 then
      if c.Latency < 200 then (annotateLine c :: fast, normal)
      else (fast, annotateLine c :: normal)
    else (fast, formatLine c :: normal)

/-- The result-map update performed by `processLink` when a record is
admitted: append it to its protocol's list. -/
def storeResult (s : Scanner) (protocol : String) (cfg : ConfigInfo) : Scanner :=
  { s with results := fun q =>
      if q = protocol then s.results q ++ [cfg] else s.results q }

/-! ### Files/sort.go: `sortConfigs` protocol partitioning -/

/-- The protocol a line is filed under by the `switch` in `sortConfigs`
(first matching prefix, in source order). -/
def sortProtoOf (line : String) : Option String :=
  if goHasPfx "vmess://" line then some "vmess"
  else if goHasPfx "vless://" line then some "vless"
  else if goHasPfx "trojan://" line then some "trojan"
  else if goHasPfx "ss://" line then some "ss"
  else if goHasPfx "ssr://" line then some "ssr"
  else none

/-- The per-protocol state of `sortConfigs`: collected configs (the vmess
stream written straight to its file and the buffered other protocols are both
kept as lists here), the per-protocol `seenConfigs` sets, and the
`configCount` / `duplicateCount` tallies. -/
structure SortState where
  out : String → List String
  seen : String → List String
  configCount : String → Nat
  duplicateCount : String → Nat

def sortInitState : SortState :=
  ⟨fun _ => [], fun _ => [], fun _ => 0, fun _ => 0⟩

/-- One iteration of the `scanner.Scan()` loop of `sortConfigs`. -/
def sortStep (st : SortState) (raw : String) : SortState :=
  let line := goTrimSpace raw
  if line = "" then st
  else
    match sortProtoOf line with
    | none => st
    | some p =>
      if line ∈ st.seen p then
        { st with duplicateCount := fun q =>
            if q = p then st.duplicateCount q + 1 else st.duplicateCount q }
      else
        { st with
          seen := fun q => if q = p then line :: st.seen q else st.seen q,
          out := fun q => if q = p then st.out q ++ [line] else st.out q,
          configCount := fun q =>
            if q = p then st.configCount q + 1 else st.configCount q }

/-- Model of the line-processing phase of `sortConfigs` on the fetched
document's lines. -/
def sortConfigs (lines : List String) : SortState :=
  lines.foldl sortStep sortInitState

/-! ### sort.Slice model

`SaveResults` sorts each protocol group with `sort.Slice`, which since
Go 1.19 is the pattern-defeating quicksort of the `sort` package
(`pdqsort_func` and its helpers); the comparator reads the slice being
sorted. The functions below mirror those helpers one-to-one; loops carry an
explicit fuel that is always sufficient for the bounds the driver passes. -/

section SortSlice

variable {α : Type} [Inhabited α]

/-- Element read, out-of-range reads never occur on the paths taken. -/
def aget (a : Array α) (i : Nat) : α := a.getD i default

/-- Model of `data.Swap(i, j)` (reflect Swapper). -/
def aswap (a : Array α) (i j : Nat) : Array α :=
  if i < a.size ∧ j < a.size then (a.setD i (aget a j)).setD j (aget a i) else a

/-- Inner loop of `insertionSort_func`: move element `j` left while smaller
than its left neighbour, stopping at `a`. -/
def insSortInner (lt : α → α → Bool) (a : Nat) : Array α → Nat → Array α
  | arr, 0 => arr
  | arr, j + 1 =>
    if a < j + 1 ∧ lt (aget arr (j + 1)) (aget arr j) then
      insSortInner lt a (aswap arr (j + 1) j) j
    else arr

/-- Model of `insertionSort_func(data, a, b)`. -/
def insertionSortGo (lt : α → α → Bool) (a b : Nat) (arr : Array α) : Array α :=
  (List.range' (a + 1) (b - (a + 1))).foldl (fun ar i => insSortInner lt a ar i) arr

/-- Model of `siftDown_func(data, lo=root, hi, first)` with fuel. -/
def siftDownGo (lt : α → α → Bool) (first hi : Nat) :
    Nat → Array α → Nat → Array α
  | 0, arr, _ => arr
  | fuel + 1, arr, root =>
    let child0 := 2 * root + 1
    if child0 ≥ hi then arr
    else
      let child := if child0 + 1 < hi ∧
          lt (aget arr (first + child0)) (aget arr (first + child0 + 1)) then
        child0 + 1 else child0
      if ¬ lt (aget arr (first + root)) (aget arr (first + child)) then arr
      else siftDownGo lt first hi fuel (aswap arr (first + root) (first + child)) child

/-- Model of `heapSort_func(data, a, b)`. -/
def heapSortGo (lt : α → α → Bool) (a b : Nat) (arr : Array α) : Array α :=
  let first := a
  let hi := b - a
  let arr1 := ((List.range ((hi - 1) / 2 + 1)).reverse).foldl
    (fun ar i => siftDownGo lt first hi hi ar i) arr
  ((List.range hi).reverse).foldl
    (fun ar i => siftDownGo lt first i i (aswap ar first (first + i)) 0) arr1

/-- Model of `order2_func`: order two indices by the values they hold, counting a
swap. -/
def order2Go (lt : α → α → Bool) (arr : Array α) (a b swaps : Nat) :
    Nat × Nat × Nat :=
  if lt (aget arr b) (aget arr a) then (b, a, swaps + 1) else (a, b, swaps)

/-- Model of `median_func`: index of the median of the values at three indices. -/
def medianGo (lt : α → α → Bool) (arr : Array α) (a0 b0 c0 swaps0 : Nat) :
    Nat × Nat :=
  let (a1, b1, s1) := order2Go lt arr a0 b0 swaps0
  let (b2, _, s2) := order2Go lt arr b1 c0 s1
  let (_, b3, s3) := order2Go lt arr a1 b2 s2
  (b3, s3)

/-- Model of `medianAdjacent_func`. -/
def medianAdjacentGo (lt : α → α → Bool) (arr : Array α) (a swaps : Nat) :
    Nat × Nat :=
  medianGo lt arr (a - 1) a (a + 1) swaps

inductive SortHint where
  | increasing : SortHint
  | decreasing : SortHint
  | unknown : SortHint
deriving DecidableEq

def hintOfSwaps (swaps : Nat) : SortHint :=
  if swaps = 0 then SortHint.increasing
  else if swaps = 12 then SortHint.decreasing
  else SortHint.unknown

/-- Model of `choosePivot_func`: approximate-median pivot (median of three, with the
Tukey ninther for 50 elements or more) plus a sortedness hint. -/
def choosePivotGo (lt : α → α → Bool) (arr : Array α) (a b : Nat) :
    Nat × SortHint :=
  let l := b - a
  let i0 := a + l / 4 * 1
  let j0 := a + l / 4 * 2
  let k0 := a + l / 4 * 3
  if l ≥ 8 then
    if l ≥ 50 then
      let (i1, s1) := medianAdjacentGo lt arr i0 0
      let (j1, s2) := medianAdjacentGo lt arr j0 s1
      let (k1, s3) := medianAdjacentGo lt arr k0 s2
      let (j2, s4) := medianGo lt arr i1 j1 k1 s3
      (j2, hintOfSwaps s4)
    else
      let (j2, s4) := medianGo lt arr i0 j0 k0 0
      (j2, hintOfSwaps s4)
  else (j0, SortHint.increasing)

/-- Model of `reverseRange_func` with fuel. -/
def reverseRangeGo : Nat → Array α → Nat → Nat → Array α
  | 0, arr, _, _ => arr
  | fuel + 1, arr, i, j => if i < j then reverseRangeGo fuel (aswap arr i j) (i + 1) (j - 1) else arr

/-- The `i++` scan of `partialInsertionSort_func`: first index in `[i, b)`
that is smaller than its left neighbour. -/
def painsAdvance (lt : α → α → Bool) (arr : Array α) (b : Nat) :
    Nat → Nat → Nat
  | 0, i => i
  | fuel + 1, i =>
    if i < b ∧ ¬ lt (aget arr i) (aget arr (i - 1)) then
      painsAdvance lt arr b fuel (i + 1)
    else i

/-- The left-shift loop of `partialInsertionSort_func` (its lower bound is
the literal 1 in the source). -/
def painsShiftLeft (lt : α → α → Bool) : Nat → Array α → Nat → Array α
  | 0, arr, _ => arr
  | fuel + 1, arr, j =>
    if 1 ≤ j then
      if ¬ lt (aget arr j) (aget arr (j - 1)) then arr
      else painsShiftLeft lt fuel (aswap arr j (j - 1)) (j - 1)
    else arr

/-- The right-shift loop of `partialInsertionSort_func`. -/
def painsShiftRight (lt : α → α → Bool) (b : Nat) : Nat → Array α → Nat → Array α
  | 0, arr, _ => arr
  | fuel + 1, arr, j =>
    if j < b then
      if ¬ lt (aget arr j) (aget arr (j - 1)) then arr
      else painsShiftRight lt b fuel (aswap arr j (j - 1)) (j + 1)
    else arr

/-- One `maxSteps` iteration body of `partialInsertionSort_func`, recursing
over the remaining steps; returns the array and whether the range was found
fully sorted. -/
def painsSteps (lt : α → α → Bool) (a b : Nat) :
    Nat → Array α → Nat → Array α × Bool
  | 0, arr, _ => (arr, false)
  | steps + 1, arr, i0 =>
    let i := painsAdvance lt arr b (b + 1) i0
    if i = b then (arr, true)
    else if b - a < 50 then (arr, false)
    else
      let arr1 := aswap arr i (i - 1)
      let arr2 := if i - a ≥ 2 then painsShiftLeft lt (i + 1) arr1 (i - 1) else arr1
      let arr3 := if b - i ≥ 2 then painsShiftRight lt b (b + 1) arr2 (i + 1) else arr2
      painsSteps lt a b steps arr3 i

/-- Model of `partialInsertionSort_func(data, a, b)`: up to 5 adjacent out-of-order
pairs are shifted into place; reports whether the range ended up sorted. -/
def partialInsSortGo (lt : α → α → Bool) (arr : Array α) (a b : Nat) :
    Array α × Bool :=
  painsSteps lt a b 5 arr (a + 1)

/-- The `xorshift` PRNG of the sort package (64-bit). -/
def xorshiftNext (r : Nat) : Nat :=
  let r1 := (r ^^^ (r <<< 13)) % 2 ^ 64
  let r2 := (r1 ^^^ (r1 >>> 7)) % 2 ^ 64
  (r2 ^^^ (r2 <<< 17)) % 2 ^ 64

/-- Model of `bits.Len`. -/
def bitsLen (n : Nat) : Nat := if n = 0 then 0 else Nat.log2 n + 1

/-- Model of `nextPowerOfTwo` of the sort package: `1 << bits.Len(length)`. -/
def nextPow2 (length : Nat) : Nat := 2 ^ bitsLen length

/-- Model of `breakPatterns_func`: deterministically perturb three elements around the
midpoint using the xorshift generator seeded with the length. -/
def breakPatternsGo (lt : α → α → Bool) (arr : Array α) (a b : Nat) : Array α :=
  let length := b - a
  if length ≥ 8 then
    let modulus := nextPow2 length
    let idx := a + length / 4 * 2 - 1
    let r1 := xorshiftNext length
    let other1 := let o := r1 % modulus; if o ≥ length then o - length else o
    let arr1 := aswap arr (idx - 1) (a + other1)
    let r2 := xorshiftNext r1
    let other2 := let o := r2 % modulus; if o ≥ length then o - length else o
    let arr2 := aswap arr1 idx (a + other2)
    let r3 := xorshiftNext r2
    let other3 := let o := r3 % modulus; if o ≥ length then o - length else o
    aswap arr2 (idx + 1) (a + other3)
  else arr

/-- The `i`-advance of `partition_func`: skip elements smaller than the pivot
(which sits at index `a`). -/
def partSkipI (lt : α → α → Bool) (arr : Array α) (a : Nat) :
    Nat → Nat → Nat → Nat
  | 0, i, _ => i
  | fuel + 1, i, j =>
    if i ≤ j ∧ lt (aget arr i) (aget arr a) then partSkipI lt arr a fuel (i + 1) j
    else i

/-- The `j`-retreat of `partition_func`: skip elements not smaller than the
pivot. -/
def partSkipJ (lt : α → α → Bool) (arr : Array α) (a : Nat) :
    Nat → Nat → Nat → Nat
  | 0, _, j => j
  | fuel + 1, i, j =>
    if i ≤ j ∧ ¬ lt (aget arr j) (aget arr a) then partSkipJ lt arr a fuel i (j - 1)
    else j

/-- The main exchange loop of `partition_func`. -/
def partLoop (lt : α → α → Bool) (a : Nat) :
    Nat → Array α → Nat → Nat → Array α × Nat
  | 0, arr, _, j => (arr, j)
  | fuel + 1, arr, i, j =>
    let i1 := partSkipI lt arr a (j + 2) i j
    let j1 := partSkipJ lt arr a (j + 2) i1 j
    if i1 > j1 then (arr, j1)
    else partLoop lt a fuel (aswap arr i1 j1) (i1 + 1) (j1 - 1)

/-- Model of `partition_func(data, a, b, pivot)`: returns the array, the final pivot
position, and whether the range was already partitioned. -/
def partitionGo (lt : α → α → Bool) (arr0 : Array α) (a b pivot : Nat) :
    Array α × Nat × Bool :=
  let arr := aswap arr0 a pivot
  let i := partSkipI lt arr a (b + 2) (a + 1) (b - 1)
  let j := partSkipJ lt arr a (b + 2) i (b - 1)
  if i > j then (aswap arr j a, j, true)
  else
    let arr1 := aswap arr i j
    let (arr2, jf) := partLoop lt a (b + 2) arr1 (i + 1) (j - 1)
    (aswap arr2 jf a, jf, false)

/-- The `i`-advance of `partitionEqual_func`: skip elements not greater than
the pivot. -/
def peqSkipI (lt : α → α → Bool) (arr : Array α) (a : Nat) :
    Nat → Nat → Nat → Nat
  | 0, i, _ => i
  | fuel + 1, i, j =>
    if i ≤ j ∧ ¬ lt (aget arr a) (aget arr i) then peqSkipI lt arr a fuel (i + 1) j
    else i

/-- The `j`-retreat of `partitionEqual_func`: skip elements greater than the
pivot. -/
def peqSkipJ (lt : α → α → Bool) (arr : Array α) (a : Nat) :
    Nat → Nat → Nat → Nat
  | 0, _, j => j
  | fuel + 1, i, j =>
    if i ≤ j ∧ lt (aget arr a) (aget arr j) then peqSkipJ lt arr a fuel i (j - 1)
    else j

/-- The exchange loop of `partitionEqual_func`; returns the array and the
final `i`. -/
def peqLoop (lt : α → α → Bool) (a : Nat) :
    Nat → Array α → Nat → Nat → Array α × Nat
  | 0, arr, i, _ => (arr, i)
  | fuel + 1, arr, i, j =>
    let i1 := peqSkipI lt arr a (j + 2) i j
    let j1 := peqSkipJ lt arr a (j + 2) i1 j
    if i1 > j1 then (arr, i1)
    else peqLoop lt a fuel (aswap arr i1 j1) (i1 + 1) (j1 - 1)

/-- Model of `partitionEqual_func(data, a, b, pivot)`: move elements equal to the
pivot to the front; returns the array and the first index past them. -/
def partitionEqualGo (lt : α → α → Bool) (arr0 : Array α) (a b pivot : Nat) :
    Array α × Nat :=
  let arr := aswap arr0 a pivot
  peqLoop lt a (b + 2) arr (a + 1) (b - 1)

/-- The pivot-choice stage of a `pdqsort_func` iteration: choose a pivot;
on a `decreasing` hint reverse the range, mirror the pivot index and treat
the hint as `increasing`. Returns the array, pivot index and hint. -/
def pdqPivotStage (lt : α → α → Bool) (arrA : Array α) (a b : Nat) :
    Array α × Nat × SortHint :=
  let pc := choosePivotGo lt arrA a b
  if pc.2 = SortHint.decreasing then
    (reverseRangeGo (b + 1) arrA a (b - 1), (b - 1) - (pc.1 - a), SortHint.increasing)
  else (arrA, pc.1, pc.2)

/-- The likely-sorted fast path of a `pdqsort_func` iteration: try
`partialInsertionSort_func` when the last partitioning was balanced and
partitioned and the hint is `increasing`. -/
def pdqPisStage (lt : α → α → Bool) (arrB : Array α) (a b : Nat)
    (wb wp : Bool) (hint : SortHint) : Array α × Bool :=
  if wb ∧ wp ∧ hint = SortHint.increasing then partialInsSortGo lt arrB a b
  else (arrB, false)

/-- Model of `pdqsort_func(data, a, b, limit)`: the driver loop. The `fuel` bounds the
number of loop iterations and nested calls; every iteration strictly shrinks
`b - a`, so any fuel of at least `b - a + 1` reproduces the Go control flow
exactly. The `continue` of the Go loop and its recursive call both become
recursive calls here; a recursive call restarts with
`wasBalanced = wasPartitioned = true` as the Go locals do, while the
continued loop carries the updated values. -/
def pdqsortLoop (lt : α → α → Bool) :
    Nat → Array α → Nat → Nat → Nat → Bool → Bool → Array α
  | 0, arr, _, _, _, _, _ => arr
  | fuel + 1, arr0, a, b, limit0, wb, wp =>
    if b - a ≤ 12 then insertionSortGo lt a b arr0
    else if limit0 = 0 then heapSortGo lt a b arr0
    else
      let arrA := if ¬ wb then breakPatternsGo lt arr0 a b else arr0
      let limit := if ¬ wb then limit0 - 1 else limit0
      let ps := pdqPivotStage lt arrA a b
      let pis := pdqPisStage lt ps.1 a b wb wp ps.2.2
      if pis.2 then pis.1
      else if 0 < a ∧ ¬ lt (aget pis.1 (a - 1)) (aget pis.1 ps.2.1) then
        let pe := partitionEqualGo lt pis.1 a b ps.2.1
        pdqsortLoop lt fuel pe.1 pe.2 b limit wb wp
      else
        let pr := partitionGo lt pis.1 a b ps.2.1
        let wasBalanced1 := decide (min (pr.2.1 - a) (b - pr.2.1) ≥ (b - a) / 8)
        if pr.2.1 - a < b - pr.2.1 then
          pdqsortLoop lt fuel (pdqsortLoop lt fuel pr.1 a pr.2.1 limit true true)
            (pr.2.1 + 1) b limit wasBalanced1 pr.2.2
        else
          pdqsortLoop lt fuel (pdqsortLoop lt fuel pr.1 (pr.2.1 + 1) b limit true true)
            a pr.2.1 limit wasBalanced1 pr.2.2

/-- Model of Go `sort.Slice(x, less)` (Go 1.19 and later): pdqsort over the
whole slice with depth limit `bits.Len(n)`. -/
def sortSliceGo (lt : α → α → Bool) (l : List α) : List α :=
  let n := l.length
  (pdqsortLoop lt (n + 2) l.toArray 0 n (bitsLen n) true true).toList

end SortSlice

/-- The `sort.Slice` call of `SaveResults`: ascending by `Latency`. -/
def sortByLatency (configs : List ConfigInfo) : List ConfigInfo :=
  sortSliceGo (fun x y => x.Latency < y.Latency) configs

/-- One protocol group's pass of `SaveResults`: sort by latency, then split
into the fast and normal line lists. -/
def saveGroup (configs : List ConfigInfo) : List String × List String :=
  partitionLoop (sortByLatency configs)

/-- A 13-record protocol group with tied latencies (value 6 at input
positions 3, 6 and 9). -/
def c3Group : List ConfigInfo :=
  [⟨"l0", "r", 10, "h", 1⟩, ⟨"l1", "r", 5, "h", 1⟩, ⟨"l2", "r", 5, "h", 1⟩,
   ⟨"l3", "r", 6, "h", 1⟩, ⟨"l4", "r", 9, "h", 1⟩, ⟨"l5", "r", 5, "h", 1⟩,
   ⟨"l6", "r", 6, "h", 1⟩, ⟨"l7", "r", 1, "h", 1⟩, ⟨"l8", "r", 2, "h", 1⟩,
   ⟨"l9", "r", 6, "h", 1⟩, ⟨"l10", "r", 3, "h", 1⟩, ⟨"l11", "r", 2, "h", 1⟩,
   ⟨"l12", "r", 1, "h", 1⟩]

/-- What the `sort.Slice` model computes on `c3Group`. -/
def c3Sorted : List ConfigInfo :=
  [⟨"l12", "r", 1, "h", 1⟩, ⟨"l7", "r", 1, "h", 1⟩, ⟨"l8", "r", 2, "h", 1⟩,
   ⟨"l11", "r", 2, "h", 1⟩, ⟨"l10", "r", 3, "h", 1⟩, ⟨"l1", "r", 5, "h", 1⟩,
   ⟨"l2", "r", 5, "h", 1⟩, ⟨"l5", "r", 5, "h", 1⟩, ⟨"l6", "r", 6, "h", 1⟩,
   ⟨"l9", "r", 6, "h", 1⟩, ⟨"l3", "r", 6, "h", 1⟩, ⟨"l4", "r", 9, "h", 1⟩,
   ⟨"l0", "r", 10, "h", 1⟩]

/-! ## Theorems -/

/-! #### Lemmas about the filter loop -/

theorem filterLoop_mem (protos : List String) :
    ∀ (rest : List String) (filtered seen : List String),
      (∀ x, x ∈ seen ↔ x ∈ filtered) →
      (∀ v, v ∈ filterLoop protos rest filtered seen ↔
        v ∈ filtered ∨
          (v ∈ rest.map goTrimSpace ∧ v ≠ "" ∧ (firstProto protos v).isSome)) := by
  intro rest
  induction rest with
  | nil =>
    intro filtered seen _ v
    simp [filterLoop]
  | cons line0 rest ih =>
    intro filtered seen hseen v
    have hmap : List.map goTrimSpace (line0 :: rest) =
        goTrimSpace line0 :: List.map goTrimSpace rest := rfl
    rw [hmap]
    simp only [filterLoop, List.mem_cons]
    by_cases h0 : goTrimSpace line0 = ""
    · rw [if_pos h0]
      rw [ih filtered seen hseen v]
      constructor
      · rintro (h | ⟨hm, hne, hs⟩)
        · exact Or.inl h
        · exact Or.inr ⟨Or.inr hm, hne, hs⟩
      · rintro (h | ⟨heq | hm, hne, hs⟩)
        · exact Or.inl h
        · exact absurd (heq.trans h0) hne
        · exact Or.inr ⟨hm, hne, hs⟩
    · rw [if_neg h0]
      by_cases hsn : goTrimSpace line0 ∈ seen
      · rw [if_pos hsn]
        rw [ih filtered seen hseen v]
        constructor
        · rintro (h | ⟨hm, hne, hs⟩)
          · exact Or.inl h
          · exact Or.inr ⟨Or.inr hm, hne, hs⟩
        · rintro (h | ⟨heq | hm, hne, hs⟩)
          · exact Or.inl h
          · exact Or.inl (heq ▸ (hseen _).mp hsn)
          · exact Or.inr ⟨hm, hne, hs⟩
      · rw [if_neg hsn]
        cases hfp : firstProto protos (goTrimSpace line0) with
        | some p =>
          have hseen' : ∀ x, x ∈ goTrimSpace line0 :: seen ↔
              x ∈ filtered ++ [goTrimSpace line0] := by
            intro x
            simp [hseen x, or_comm]
          rw [ih _ _ hseen' v]
          simp only [List.mem_append, List.mem_cons, List.not_mem_nil, or_false]
          constructor
          · rintro ((h | h) | ⟨hm, hne, hs⟩)
            · exact Or.inl h
            · refine Or.inr ⟨Or.inl h, ?_, ?_⟩
              · rw [h]; exact h0
              · rw [h, hfp]; rfl
            · exact Or.inr ⟨Or.inr hm, hne, hs⟩
          · rintro (h | ⟨heq | hm, hne, hs⟩)
            · exact Or.inl (Or.inl h)
            · exact Or.inl (Or.inr heq)
            · exact Or.inr ⟨hm, hne, hs⟩
        | none =>
          rw [ih filtered seen hseen v]
          constructor
          · rintro (h | ⟨hm, hne, hs⟩)
            · exact Or.inl h
            · exact Or.inr ⟨Or.inr hm, hne, hs⟩
          · rintro (h | ⟨heq | hm, hne, hs⟩)
            · exact Or.inl h
            · exact absurd hs (by rw [heq, hfp]; simp)
            · exact Or.inr ⟨hm, hne, hs⟩

theorem filterLoop_nodup (protos : List String) :
    ∀ (rest : List String) (filtered seen : List String),
      (∀ x, x ∈ seen ↔ x ∈ filtered) →
      filtered.Nodup →
      (filterLoop protos rest filtered seen).Nodup := by
  intro rest
  induction rest with
  | nil =>
    intro filtered seen _ hnd
    simpa [filterLoop] using hnd
  | cons line0 rest ih =>
    intro filtered seen hseen hnd
    simp only [filterLoop]
    by_cases h0 : goTrimSpace line0 = ""
    · rw [if_pos h0]
      exact ih filtered seen hseen hnd
    · rw [if_neg h0]
      by_cases hsn : goTrimSpace line0 ∈ seen
      · rw [if_pos hsn]
        exact ih filtered seen hseen hnd
      · rw [if_neg hsn]
        cases hfp : firstProto protos (goTrimSpace line0) with
        | some p =>
          have hseen' : ∀ x, x ∈ goTrimSpace line0 :: seen ↔
              x ∈ filtered ++ [goTrimSpace line0] := by
            intro x
            simp [hseen x, or_comm]
          refine ih _ _ hseen' ?_
          refine List.Nodup.append hnd (List.nodup_singleton _) ?_
          intro x hx hx'
          rw [List.mem_singleton] at hx'
          exact hsn ((hseen _).mpr (hx' ▸ hx))
        | none =>
          exact ih filtered seen hseen hnd

/-! #### Lemmas about the chunking -/

theorem chunks_join (k : Nat) :
    ∀ l : List String, l.length ≤ maxLinesPerFile * k →
      ((List.range k).map
        (fun i => (l.drop (i * maxLinesPerFile)).take maxLinesPerFile)).flatten = l := by
  induction k with
  | zero =>
    intro l h
    simp only [Nat.mul_zero, Nat.le_zero, List.length_eq_zero] at h
    simp [h]
  | succ k ih =>
    intro l h
    have hfun : ((fun i => (l.drop (i * maxLinesPerFile)).take maxLinesPerFile) ∘ (· + 1)) =
        fun i => ((l.drop maxLinesPerFile).drop (i * maxLinesPerFile)).take maxLinesPerFile := by
      funext i
      simp only [Function.comp_apply]
      rw [List.drop_drop]
      congr 1
      ring_nf
    have hlen : (l.drop maxLinesPerFile).length ≤ maxLinesPerFile * k := by
      rw [List.length_drop]
      have : maxLinesPerFile * (k + 1) = maxLinesPerFile * k + maxLinesPerFile := by ring
      omega
    rw [List.range_succ_eq_map, List.map_cons, List.map_map, hfun, List.flatten_cons,
      ih _ hlen, Nat.zero_mul, List.drop_zero, List.take_append_drop]

/-- C1: `splitIntoFiles` on a deduplicated config list of `M` entries produces
exactly `ceil(M/500)` chunks; the chunks concatenate to the reversed input
(hence their union, order ignored, is the input set, with last-seen entries in
the lowest-numbered file); chunk `i` (0-based) is the window
`[i*500, (i+1)*500)` of the reversed sequence; and every chunk except possibly
the last has exactly 500 entries. -/
theorem c1_splitIntoFiles_spec (configs : List String) :
    ((splitIntoFiles configs).length =
        (configs.length + maxLinesPerFile - 1) / maxLinesPerFile) ∧
    (configs.length ≤ maxLinesPerFile * (splitIntoFiles configs).length ∧
      maxLinesPerFile * (splitIntoFiles configs).length <
        configs.length + maxLinesPerFile) ∧
    ((splitIntoFiles configs).flatten = configs.reverse) ∧
    (∀ i, (splitIntoFiles configs)[i]? =
      if i < (configs.length + maxLinesPerFile - 1) / maxLinesPerFile then
        some ((configs.reverse.drop (i * maxLinesPerFile)).take maxLinesPerFile)
      else none) ∧
    (∀ i, (((splitIntoFiles configs)[i]?).getD []).length =
      min maxLinesPerFile (configs.length - i * maxLinesPerFile)) ∧
    (∀ i, i + 1 < (splitIntoFiles configs).length →
      (((splitIntoFiles configs)[i]?).getD []).length = maxLinesPerFile) := by
  set M := configs.length with hMdef
  set nf := (M + maxLinesPerFile - 1) / maxLinesPerFile with hnf
  have hunfold : splitIntoFiles configs =
      (List.range nf).map
        (fun i => (configs.reverse.drop (i * maxLinesPerFile)).take maxLinesPerFile) := rfl
  have hlen : (splitIntoFiles configs).length = nf := by
    rw [hunfold, List.length_map, List.length_range]
  have hdm := Nat.div_add_mod (M + maxLinesPerFile - 1) maxLinesPerFile
  have hmod : (M + maxLinesPerFile - 1) % maxLinesPerFile < maxLinesPerFile :=
    Nat.mod_lt _ (by norm_num [maxLinesPerFile])
  have hoverall : M ≤ maxLinesPerFile * nf ∧ maxLinesPerFile * nf < M + maxLinesPerFile := by
    rw [hnf]
    simp only [maxLinesPerFile] at hdm hmod ⊢
    omega
  have hget : ∀ i, (splitIntoFiles configs)[i]? =
      if i < nf then
        some ((configs.reverse.drop (i * maxLinesPerFile)).take maxLinesPerFile)
      else none := by
    intro i
    rw [hunfold, List.getElem?_map]
    by_cases h : i < nf
    · rw [List.getElem?_range h, if_pos h]
      rfl
    · rw [List.getElem?_eq_none (by simpa using Nat.le_of_not_lt h), if_neg h]
      rfl
  have hchunklen : ∀ i, (((splitIntoFiles configs)[i]?).getD []).length =
      min maxLinesPerFile (M - i * maxLinesPerFile) := by
    intro i
    rw [hget i]
    by_cases h : i < nf
    · rw [if_pos h]
      simp [List.length_take, List.length_drop]
    · rw [if_neg h]
      have hMle : M ≤ i * maxLinesPerFile := by
        have h2 : nf ≤ i := Nat.le_of_not_lt h
        calc M ≤ maxLinesPerFile * nf := hoverall.1
          _ ≤ maxLinesPerFile * i := Nat.mul_le_mul_left _ h2
          _ = i * maxLinesPerFile := Nat.mul_comm _ _
      simp only [Option.getD_none, List.length_nil]
      omega
  refine ⟨hlen, hlen ▸ hoverall, ?_, hget, hchunklen, ?_⟩
  · rw [hunfold]
    exact chunks_join nf configs.reverse
      (by rw [List.length_reverse, ← hMdef]; exact hoverall.1)
  · intro i hi
    rw [hlen] at hi
    rw [hchunklen i]
    have h3 : maxLinesPerFile * (i + 2) ≤ maxLinesPerFile * nf :=
      Nat.mul_le_mul_left _ (by omega)
    have h4 := hoverall.2
    simp only [maxLinesPerFile] at h3 h4 ⊢
    omega

/-- C6: for every input line sequence and every valid (recognized-prefix,
nonempty after trimming) entry value `v` occurring at least once among the
trimmed lines, `filterForProtocols` outputs exactly one entry equal to `v`:
the first occurrence is kept, later occurrences (from any source) are dropped
by the process-wide `seen` set. -/
theorem c6_dedup_idempotence (data : List String) (v : String)
    (hne : v ≠ "") (hproto : (firstProto protocols v).isSome)
    (hocc : v ∈ data.map goTrimSpace) :
    (filterForProtocols data protocols).count v = 1 := by
  have hseen : ∀ x : String, x ∈ ([] : List String) ↔ x ∈ ([] : List String) :=
    fun _ => Iff.rfl
  have hmem : v ∈ filterLoop protocols data [] [] :=
    (filterLoop_mem protocols data [] [] hseen v).mpr (Or.inr ⟨hocc, hne, hproto⟩)
  have hnd := filterLoop_nodup protocols data [] [] hseen List.nodup_nil
  exact List.count_eq_one_of_mem hnd hmem

/-- Witness for C6 at a concrete input: the value occurs three times
(twice verbatim, once with surrounding whitespace), yet is output once. -/
theorem c6_witness :
    ("vmess://a" : String) ≠ "" ∧
    (firstProto protocols "vmess://a").isSome = true ∧
    "vmess://a" ∈ ["vmess://a", "  vmess://a  ", "junk", "vmess://a"].map goTrimSpace ∧
    (filterForProtocols ["vmess://a", "  vmess://a  ", "junk", "vmess://a"]
        protocols).count "vmess://a" = 1 :=
  ⟨by decide, by decide, by decide,
    c6_dedup_idempotence _ _ (by decide) (by decide) (by decide)⟩

/-- C7: a trimmed line is kept by `filterForProtocols` exactly when it is
nonempty and starts with a recognized protocol prefix; the matching prefix is
the first one of the fixed table (first-match-wins: an `ssr://` line matches
the earlier table entry `ss`, demonstrated concretely). -/
theorem c7_pfx_filtering (data : List String) (v : String) :
    (v ∈ filterForProtocols data protocols ↔
      v ∈ data.map goTrimSpace ∧ v ≠ "" ∧ (firstProto protocols v).isSome) ∧
    firstProto protocols "ssr://host:1" = some "ss" := by
  constructor
  · have hseen : ∀ x : String, x ∈ ([] : List String) ↔ x ∈ ([] : List String) :=
      fun _ => Iff.rfl
    have h := filterLoop_mem protocols data [] [] hseen v
    show v ∈ filterLoop protocols data [] [] ↔ _
    rw [h]
    simp
  · decide

/-- Witness for C1 at a concrete input of 501 entries: two chunk files, the
first one full with exactly 500 entries. -/
theorem c1_witness :
    (splitIntoFiles (List.replicate 501 "x")).length = 2 ∧
    (((splitIntoFiles (List.replicate 501 "x"))[0]?).getD []).length =
      maxLinesPerFile := by
  have h := c1_splitIntoFiles_spec (List.replicate 501 "x")
  constructor
  · rw [h.1, List.length_replicate]
    decide
  · exact h.2.2.2.2.2 0 (by rw [h.1, List.length_replicate]; decide)

/-- C4: decoding the vmess link whose payload is base64 of
`{"add":"test.com","port":"443","ps":"Test"}` yields host `test.com`,
port 443, label `Test`; a JSON-number port is accepted as well; and any
base64 decode failure or JSON parse failure yields the absent record
(empty host, port 0). -/
theorem c4_decodeVMess_spec :
    decodeVMess
        "vmess://eyJhZGQiOiJ0ZXN0LmNvbSIsInBvcnQiOiI0NDMiLCJwcyI6IlRlc3QifQ==" =
      ("test.com", 443, "Test", "vmess") ∧
    decodeVMess "vmess://eyJhZGQiOiJ0ZXN0LmNvbSIsInBvcnQiOjQ0MywicHMiOiJUIn0=" =
      ("test.com", 443, "T", "vmess") ∧
    (∀ link, decodeBase64Std (padB64 (goTrimPfxStr link "vmess://")) = none →
      decodeVMess link = ("", 0, "", "vmess")) ∧
    (∀ link bytes,
      decodeBase64Std (padB64 (goTrimPfxStr link "vmess://")) = some bytes →
      jsonUnmarshalObj bytes = none →
      decodeVMess link = ("", 0, "", "vmess")) := by
  refine ⟨by decide, by decide, ?_, ?_⟩
  · intro link h
    simp only [decodeVMess, h]
  · intro link bytes h1 h2
    simp only [decodeVMess, h1, h2]

/-- Witness for the failure cases of C4: a non-base64 payload, and a base64
payload (`hello`) that is not a JSON object. -/
theorem c4_witness :
    decodeBase64Std (padB64 (goTrimPfxStr "vmess://%%" "vmess://")) = none ∧
    decodeVMess "vmess://%%" = ("", 0, "", "vmess") ∧
    decodeBase64Std (padB64 (goTrimPfxStr "vmess://aGVsbG8=" "vmess://")) =
      some [104, 101, 108, 108, 111] ∧
    jsonUnmarshalObj [104, 101, 108, 108, 111] = none ∧
    decodeVMess "vmess://aGVsbG8=" = ("", 0, "", "vmess") :=
  ⟨by rfl, c4_decodeVMess_spec.2.2.1 _ (by rfl), by rfl, by rfl,
    c4_decodeVMess_spec.2.2.2 _ _ (by rfl) (by rfl)⟩

/-- C5: the generic decoder for vless / trojan / ss returns the URI hostname,
the URI port (0 when absent), and the fragment with the `NoRemark` default,
and returns the absent quadruple exactly when `url.Parse` fails; concretely,
a trojan link with no fragment decodes to `test.com`, 443 and the default
marker, a port-less vless link gets port 0, and a link whose authority has an
invalid port fails to parse and is absent. -/
theorem c5_decodeGeneric_spec :
    (∀ link pfx, decodeGeneric link pfx =
      match goUrlParse link with
      | none => ("", 0, "", goTrimSfx pfx "://")
      | some u =>
        ((splitHostPort u.host).1,
          if (splitHostPort u.host).2 ≠ "" then goAtoi (splitHostPort u.host).2
            else 0,
          if u.fragment = "" then "NoRemark" else u.fragment,
          goTrimSfx pfx "://")) ∧
    decodeTrojan "trojan://pass@test.com:443?security=tls" =
      ("test.com", 443, "NoRemark", "trojan") ∧
    decodeVLess "vless://u@test.com#X" = ("test.com", 0, "X", "vless") ∧
    decodeTrojan "trojan://pass@test.com:badport" = ("", 0, "", "trojan") := by
  refine ⟨?_, by decide, by decide, by decide⟩
  intro link pfx
  cases h : goUrlParse link with
  | none => simp only [decodeGeneric, h]
  | some u => simp only [decodeGeneric, h]

/-- C8: a decoded record with empty host or zero port is discarded by
`processLink` before entering any partition (the scanner state, hence every
output set, is unchanged); the rejection is the caller's: the decoder itself
returns such quadruples undisturbed, as on a hostless trojan link. -/
theorem c8_discard_empty_host_or_port (s : Scanner)
    (dial : String → Int → Option Nat) (link : String)
    (h : (decodeLink link).1 = "" ∨ (decodeLink link).2.1 = 0) :
    processLink s dial link = s ∧
    decodeLink "trojan://?x=1" = ("", 0, "NoRemark", "trojan") := by
  constructor
  · simp only [processLink]
    rw [if_pos h]
  · decide

/-- Witness for C8: a concrete hostless link leaves a concrete scanner state
untouched. -/
theorem c8_witness :
    ((decodeLink "trojan://?x=1").1 = "" ∨ (decodeLink "trojan://?x=1").2.1 = 0) ∧
    processLink ⟨false, fun _ => []⟩ (fun _ _ => none) "trojan://?x=1" =
      ⟨false, fun _ => []⟩ :=
  ⟨by decide,
    (c8_discard_empty_host_or_port ⟨false, fun _ => []⟩ (fun _ _ => none)
      "trojan://?x=1" (by decide)).1⟩

/-! #### The sort only permutes: every mutation is a swap -/

theorem set_swap_perm {α : Type} (l : List α) (i j : Nat) (hi : i < l.length)
    (hj : j < l.length) :
    ((l.set i (l.get ⟨j, hj⟩)).set j (l.get ⟨i, hi⟩)).Perm l := by
  classical
  have hgi : l.get ⟨i, hi⟩ = l[i] := rfl
  have hgj : l.get ⟨j, hj⟩ = l[j] := rfl
  rw [hgi, hgj, List.perm_iff_count]
  intro a
  have hlen : j < (l.set i l[j]).length := by simpa using hj
  rw [List.count_set _ _ _ _ hlen, List.count_set _ _ _ _ hi]
  rw [List.getElem_set, ite_self]
  have h1 : (if (l[i] == a) = true then 1 else 0) ≤ List.count a l := by
    split
    · rename_i hcase
      have hmem : a ∈ l := by
        rw [← eq_of_beq hcase]
        exact List.get_mem l i hi
      exact List.count_pos_iff.mpr hmem
    · exact Nat.zero_le _
  have h2 : (if (l[j] == a) = true then 1 else 0) ≤ List.count a l := by
    split
    · rename_i hcase
      have hmem : a ∈ l := by
        rw [← eq_of_beq hcase]
        exact List.get_mem l j hj
      exact List.count_pos_iff.mpr hmem
    · exact Nat.zero_le _
  omega

section SortSlicePerm

variable {α : Type} [Inhabited α]

theorem aswap_perm (a : Array α) (i j : Nat) :
    (aswap a i j).toList.Perm a.toList := by
  unfold aswap
  by_cases h : i < a.size ∧ j < a.size
  · rw [if_pos h]
    obtain ⟨hi, hj⟩ := h
    have hgi : aget a i = a.toList.get ⟨i, by simpa [Array.length_toList] using hi⟩ := by
      simp [aget, Array.getD_eq_get?, Array.getElem?_eq_getElem hi,
        List.get_eq_getElem, Array.getElem_toList]
    have hgj : aget a j = a.toList.get ⟨j, by simpa [Array.length_toList] using hj⟩ := by
      simp [aget, Array.getD_eq_get?, Array.getElem?_eq_getElem hj,
        List.get_eq_getElem, Array.getElem_toList]
    have hset1 : a.setD i (aget a j) = a.set ⟨i, hi⟩ (aget a j) := by
      simp [Array.setD, hi]
    have hsz : j < (a.set ⟨i, hi⟩ (aget a j)).size := by simpa using hj
    have hset2 : (a.set ⟨i, hi⟩ (aget a j)).setD j (aget a i) =
        (a.set ⟨i, hi⟩ (aget a j)).set ⟨j, hsz⟩ (aget a i) := by
      simp only [Array.setD]
      rw [dif_pos hsz]
    rw [hset1, hset2]
    have : ((a.set ⟨i, hi⟩ (aget a j)).set ⟨j, hsz⟩ (aget a i)).toList =
        (a.toList.set i (aget a j)).set j (aget a i) := by
      rw [Array.toList_set, Array.toList_set]
    rw [this, hgi, hgj]
    exact set_swap_perm a.toList i j (by simpa [Array.length_toList] using hi)
      (by simpa [Array.length_toList] using hj)
  · rw [if_neg h]

theorem foldl_perm {β : Type} (f : Array α → β → Array α)
    (hf : ∀ ar x, (f ar x).toList.Perm ar.toList) :
    ∀ (l : List β) (arr : Array α), ((l.foldl f arr).toList).Perm arr.toList := by
  intro l
  induction l with
  | nil => intro arr; simp
  | cons x xs ih =>
    intro arr
    exact (ih (f arr x)).trans (hf arr x)

theorem insSortInner_perm (lt : α → α → Bool) (a : Nat) :
    ∀ (j : Nat) (arr : Array α), (insSortInner lt a arr j).toList.Perm arr.toList := by
  intro j
  induction j with
  | zero => intro arr; simp [insSortInner]
  | succ j ih =>
    intro arr
    rw [insSortInner]
    split
    · exact (ih _).trans (aswap_perm _ _ _)
    · exact List.Perm.refl _

theorem insertionSortGo_perm (lt : α → α → Bool) (a b : Nat) (arr : Array α) :
    (insertionSortGo lt a b arr).toList.Perm arr.toList :=
  foldl_perm _ (fun ar i => insSortInner_perm lt a i ar) _ arr

theorem siftDownGo_perm (lt : α → α → Bool) (first hi : Nat) :
    ∀ (fuel : Nat) (arr : Array α) (root : Nat),
      (siftDownGo lt first hi fuel arr root).toList.Perm arr.toList := by
  intro fuel
  induction fuel with
  | zero => intro arr root; simp [siftDownGo]
  | succ fuel ih =>
    intro arr root
    rw [siftDownGo]
    dsimp only
    repeat
      first
      | exact List.Perm.refl _
      | refine (ih _ _).trans ?_
      | exact aswap_perm _ _ _
      | split

theorem heapSortGo_perm (lt : α → α → Bool) (a b : Nat) (arr : Array α) :
    (heapSortGo lt a b arr).toList.Perm arr.toList := by
  unfold heapSortGo
  refine (foldl_perm _ ?_ _ _).trans (foldl_perm _ ?_ _ _)
  · intro ar i
    exact (siftDownGo_perm _ _ _ _ _ _).trans (aswap_perm _ _ _)
  · intro ar i
    exact siftDownGo_perm _ _ _ _ _ _

theorem reverseRangeGo_perm :
    ∀ (fuel : Nat) (arr : Array α) (i j : Nat),
      (reverseRangeGo fuel arr i j).toList.Perm arr.toList := by
  intro fuel
  induction fuel with
  | zero => intro arr i j; simp [reverseRangeGo]
  | succ fuel ih =>
    intro arr i j
    rw [reverseRangeGo]
    split
    · exact (ih _ _ _).trans (aswap_perm _ _ _)
    · exact List.Perm.refl _

theorem painsShiftLeft_perm (lt : α → α → Bool) :
    ∀ (fuel : Nat) (arr : Array α) (j : Nat),
      (painsShiftLeft lt fuel arr j).toList.Perm arr.toList := by
  intro fuel
  induction fuel with
  | zero => intro arr j; simp [painsShiftLeft]
  | succ fuel ih =>
    intro arr j
    rw [painsShiftLeft]
    split
    · split
      · exact List.Perm.refl _
      · exact (ih _ _).trans (aswap_perm _ _ _)
    · exact List.Perm.refl _

theorem painsShiftRight_perm (lt : α → α → Bool) (b : Nat) :
    ∀ (fuel : Nat) (arr : Array α) (j : Nat),
      (painsShiftRight lt b fuel arr j).toList.Perm arr.toList := by
  intro fuel
  induction fuel with
  | zero => intro arr j; simp [painsShiftRight]
  | succ fuel ih =>
    intro arr j
    rw [painsShiftRight]
    split
    · split
      · exact List.Perm.refl _
      · exact (ih _ _).trans (aswap_perm _ _ _)
    · exact List.Perm.refl _

theorem painsSteps_perm (lt : α → α → Bool) (a b : Nat) :
    ∀ (steps : Nat) (arr : Array α) (i : Nat),
      (painsSteps lt a b steps arr i).1.toList.Perm arr.toList := by
  intro steps
  induction steps with
  | zero => intro arr i; simp [painsSteps]
  | succ steps ih =>
    intro arr i
    rw [painsSteps]
    dsimp only
    repeat
      first
      | exact List.Perm.refl _
      | refine (ih _ _).trans ?_
      | refine (painsShiftRight_perm _ _ _ _ _).trans ?_
      | refine (painsShiftLeft_perm _ _ _ _).trans ?_
      | exact aswap_perm _ _ _
      | refine (aswap_perm _ _ _).trans ?_
      | split

theorem partialInsSortGo_perm (lt : α → α → Bool) (arr : Array α) (a b : Nat) :
    (partialInsSortGo lt arr a b).1.toList.Perm arr.toList :=
  painsSteps_perm lt a b 5 arr (a + 1)

theorem breakPatternsGo_perm (lt : α → α → Bool) (arr : Array α) (a b : Nat) :
    (breakPatternsGo lt arr a b).toList.Perm arr.toList := by
  unfold breakPatternsGo
  dsimp only
  split
  · exact ((aswap_perm _ _ _).trans (aswap_perm _ _ _)).trans (aswap_perm _ _ _)
  · exact List.Perm.refl _

theorem partLoop_perm (lt : α → α → Bool) (a : Nat) :
    ∀ (fuel : Nat) (arr : Array α) (i j : Nat),
      (partLoop lt a fuel arr i j).1.toList.Perm arr.toList := by
  intro fuel
  induction fuel with
  | zero => intro arr i j; simp [partLoop]
  | succ fuel ih =>
    intro arr i j
    rw [partLoop]
    split
    · exact List.Perm.refl _
    · exact (ih _ _ _).trans (aswap_perm _ _ _)

theorem partitionGo_perm (lt : α → α → Bool) (arr0 : Array α) (a b pivot : Nat) :
    (partitionGo lt arr0 a b pivot).1.toList.Perm arr0.toList := by
  unfold partitionGo
  dsimp only
  split
  · exact (aswap_perm _ _ _).trans (aswap_perm _ _ _)
  · refine (aswap_perm _ _ _).trans ?_
    exact ((partLoop_perm _ _ _ _ _ _).trans (aswap_perm _ _ _)).trans (aswap_perm _ _ _)

theorem peqLoop_perm (lt : α → α → Bool) (a : Nat) :
    ∀ (fuel : Nat) (arr : Array α) (i j : Nat),
      (peqLoop lt a fuel arr i j).1.toList.Perm arr.toList := by
  intro fuel
  induction fuel with
  | zero => intro arr i j; simp [peqLoop]
  | succ fuel ih =>
    intro arr i j
    rw [peqLoop]
    split
    · exact List.Perm.refl _
    · exact (ih _ _ _).trans (aswap_perm _ _ _)

theorem partitionEqualGo_perm (lt : α → α → Bool) (arr0 : Array α)
    (a b pivot : Nat) :
    (partitionEqualGo lt arr0 a b pivot).1.toList.Perm arr0.toList :=
  (peqLoop_perm lt a _ _ _ _).trans (aswap_perm _ _ _)

theorem pdqPivotStage_perm (lt : α → α → Bool) (arrA : Array α) (a b : Nat) :
    (pdqPivotStage lt arrA a b).1.toList.Perm arrA.toList := by
  unfold pdqPivotStage
  dsimp only
  split
  · exact reverseRangeGo_perm _ _ _ _
  · exact List.Perm.refl _

theorem pdqPisStage_perm (lt : α → α → Bool) (arrB : Array α) (a b : Nat)
    (wb wp : Bool) (hint : SortHint) :
    (pdqPisStage lt arrB a b wb wp hint).1.toList.Perm arrB.toList := by
  unfold pdqPisStage
  split
  · exact partialInsSortGo_perm _ _ _ _
  · exact List.Perm.refl _

theorem pdqsortLoop_perm (lt : α → α → Bool) :
    ∀ (fuel : Nat) (arr : Array α) (a b limit : Nat) (wb wp : Bool),
      (pdqsortLoop lt fuel arr a b limit wb wp).toList.Perm arr.toList := by
  intro fuel
  induction fuel with
  | zero => intro arr a b limit wb wp; simp [pdqsortLoop]
  | succ fuel ih =>
    intro arr a b limit wb wp
    rw [pdqsortLoop]
    split
    · exact insertionSortGo_perm lt _ _ _
    split
    · exact heapSortGo_perm lt _ _ _
    dsimp only
    generalize hA : (if ¬ wb = true then breakPatternsGo lt arr a b else arr) = arrA
    have hpermA : arrA.toList.Perm arr.toList := by
      rw [← hA]
      split
      · exact breakPatternsGo_perm _ _ _ _
      · exact List.Perm.refl _
    generalize hps : pdqPivotStage lt arrA a b = ps
    have hpermPS : ps.1.toList.Perm arrA.toList := by
      rw [← hps]
      exact pdqPivotStage_perm lt arrA a b
    generalize hpis : pdqPisStage lt ps.1 a b wb wp ps.2.2 = pis
    have hpermPIS : pis.1.toList.Perm ps.1.toList := by
      rw [← hpis]
      exact pdqPisStage_perm lt ps.1 a b wb wp ps.2.2
    have hbase : pis.1.toList.Perm arr.toList := (hpermPIS.trans hpermPS).trans hpermA
    split
    · exact hbase
    split
    · exact (ih _ _ _ _ _ _).trans ((partitionEqualGo_perm lt _ _ _ _).trans hbase)
    split
    · exact (ih _ _ _ _ _ _).trans ((ih _ _ _ _ _ _).trans
        ((partitionGo_perm lt _ _ _ _).trans hbase))
    · exact (ih _ _ _ _ _ _).trans ((ih _ _ _ _ _ _).trans
        ((partitionGo_perm lt _ _ _ _).trans hbase))

theorem sortSliceGo_perm (lt : α → α → Bool) (l : List α) :
    (sortSliceGo lt l).Perm l := by
  unfold sortSliceGo
  have := pdqsortLoop_perm lt (l.length + 2) l.toArray 0 l.length (bitsLen l.length)
    true true
  simpa using this

end SortSlicePerm

theorem sortByLatency_perm (configs : List ConfigInfo) :
    (sortByLatency configs).Perm configs :=
  sortSliceGo_perm _ configs

/-- The `SaveResults` split as filters: `fast` collects exactly the annotated
lines of records with latency in (0, 200), `normal` the annotated lines of
records with latency at least 200 and the plain lines of records with
non-positive latency, in input order. -/
theorem partitionLoop_eq (configs : List ConfigInfo) :
    partitionLoop configs =
      (configs.filterMap (fun c =>
        if c.Latency > 0 ∧ c.Latency < 200 then some (annotateLine c) else none),
       configs.filterMap (fun c =>
        if c.Latency > 0 then
          (if c.Latency < 200 then none else some (annotateLine c))
        else some (formatLine c))) := by
  induction configs with
  | nil => rfl
  | cons c rest ih =>
    simp only [partitionLoop, ih, List.filterMap_cons]
    by_cases h1 : c.Latency > 0
    · by_cases h2 : c.Latency < 200
      · simp [h1, h2]
      · simp [h1, h2]
    · simp [h1]

/-- The line-classification loop of `sortConfigs`, as one fold invariant:
per-protocol outputs stay duplicate-free, contain exactly the classified
trimmed lines, and output length plus duplicate tally counts every classified
occurrence. -/
theorem sortConfigs_fold (lines : List String) :
    ∀ (st : SortState),
      (∀ p x, x ∈ st.seen p ↔ x ∈ st.out p) →
      (∀ p, (st.out p).Nodup) →
      ((∀ p, ((lines.foldl sortStep st).out p).Nodup) ∧
       (∀ p v, v ∈ (lines.foldl sortStep st).out p ↔
          v ∈ st.out p ∨ (v ∈ lines.map goTrimSpace ∧ sortProtoOf v = some p)) ∧
       (∀ p, ((lines.foldl sortStep st).out p).length +
            (lines.foldl sortStep st).duplicateCount p =
          (st.out p).length + st.duplicateCount p +
            ((lines.map goTrimSpace).filter
              (fun v => sortProtoOf v = some p)).length)) := by
  induction lines with
  | nil =>
    intro st hseen hnd
    refine ⟨hnd, ?_, ?_⟩
    · intro p v
      simp
    · intro p
      simp
  | cons line0 rest ih =>
    intro st hseen hnd
    have hstep : (line0 :: rest).foldl sortStep st = rest.foldl sortStep (sortStep st line0) := rfl
    have hmapcons : (line0 :: rest).map goTrimSpace =
        goTrimSpace line0 :: rest.map goTrimSpace := rfl
    rw [hstep, hmapcons]
    by_cases h0 : goTrimSpace line0 = ""
    · have hid : sortStep st line0 = st := by
        simp only [sortStep, h0]
        rfl
      rw [hid]
      obtain ⟨ha, hb, hc⟩ := ih st hseen hnd
      refine ⟨ha, ?_, ?_⟩
      · intro p v
        rw [hb p v]
        have hnone : sortProtoOf (goTrimSpace line0) = none := by
          rw [h0]
          decide
        constructor
        · rintro (h | ⟨hm, hp⟩)
          · exact Or.inl h
          · exact Or.inr ⟨List.mem_cons_of_mem _ hm, hp⟩
        · rintro (h | ⟨hm, hp⟩)
          · exact Or.inl h
          · rcases List.mem_cons.mp hm with heq | hm'
            · rw [heq, hnone] at hp
              cases hp
            · exact Or.inr ⟨hm', hp⟩
      · intro p
        rw [hc p]
        have hnone : sortProtoOf (goTrimSpace line0) = none := by
          rw [h0]
          decide
        simp [List.filter_cons, hnone]
    · cases hcl : sortProtoOf (goTrimSpace line0) with
      | none =>
        have hid : sortStep st line0 = st := by
          simp only [sortStep, h0, hcl]
          rfl
        rw [hid]
        obtain ⟨ha, hb, hc⟩ := ih st hseen hnd
        refine ⟨ha, ?_, ?_⟩
        · intro p v
          rw [hb p v]
          constructor
          · rintro (h | ⟨hm, hp⟩)
            · exact Or.inl h
            · exact Or.inr ⟨List.mem_cons_of_mem _ hm, hp⟩
          · rintro (h | ⟨hm, hp⟩)
            · exact Or.inl h
            · rcases List.mem_cons.mp hm with heq | hm'
              · rw [heq, hcl] at hp
                cases hp
              · exact Or.inr ⟨hm', hp⟩
        · intro p
          rw [hc p]
          simp [List.filter_cons, hcl]
      | some p0 =>
        by_cases hdup : goTrimSpace line0 ∈ st.seen p0
        · -- duplicate: only the duplicate tally moves
          have hid : sortStep st line0 =
              ⟨st.out, st.seen, st.configCount,
                fun q => if q = p0 then st.duplicateCount q + 1
                  else st.duplicateCount q⟩ := by
            simp only [sortStep, hcl, if_neg h0, hdup]
            rfl
          rw [hid]
          obtain ⟨ha, hb, hc⟩ := ih
            ⟨st.out, st.seen, st.configCount,
              fun q => if q = p0 then st.duplicateCount q + 1
                else st.duplicateCount q⟩ hseen hnd
          refine ⟨ha, ?_, ?_⟩
          · intro p v
            rw [hb p v]
            constructor
            · rintro (h | ⟨hm, hp⟩)
              · exact Or.inl h
              · exact Or.inr ⟨List.mem_cons_of_mem _ hm, hp⟩
            · rintro (h | ⟨hm, hp⟩)
              · exact Or.inl h
              · rcases List.mem_cons.mp hm with heq | hm'
                · subst heq
                  rw [hcl] at hp
                  cases hp
                  exact Or.inl ((hseen p0 _).mp hdup)
                · exact Or.inr ⟨hm', hp⟩
          · intro p
            rw [hc p]
            dsimp only
            by_cases hpp : p = p0
            · subst hpp
              rw [if_pos rfl]
              simp only [List.filter_cons]
              rw [if_pos (by simp [hcl])]
              simp only [List.length_cons]
              omega
            · rw [if_neg hpp]
              have hne : sortProtoOf (goTrimSpace line0) ≠ some p := by
                rw [hcl]
                intro h
                exact hpp (Option.some_injective _ h).symm
              simp only [List.filter_cons]
              rw [if_neg (by simpa using hne)]
        · -- fresh line for p0: collected and marked seen
          have hid : sortStep st line0 =
              ⟨fun q => if q = p0 then st.out q ++ [goTrimSpace line0] else st.out q,
                fun q => if q = p0 then goTrimSpace line0 :: st.seen q else st.seen q,
                fun q => if q = p0 then st.configCount q + 1 else st.configCount q,
                st.duplicateCount⟩ := by
            simp only [sortStep, hcl, if_neg h0, hdup]
            rfl
          rw [hid]
          have hseen' : ∀ p x,
              x ∈ (if p = p0 then goTrimSpace line0 :: st.seen p else st.seen p) ↔
              x ∈ (if p = p0 then st.out p ++ [goTrimSpace line0] else st.out p) := by
            intro p x
            by_cases hpp : p = p0
            · subst hpp
              simp [hseen p x, or_comm]
            · simp [hpp, hseen p x]
          have hnd' : ∀ p,
              (if p = p0 then st.out p ++ [goTrimSpace line0] else st.out p).Nodup := by
            intro p
            by_cases hpp : p = p0
            · subst hpp
              rw [if_pos rfl]
              refine List.Nodup.append (hnd p) (List.nodup_singleton _) ?_
              intro x hx hx'
              rw [List.mem_singleton] at hx'
              exact hdup ((hseen p _).mpr (hx' ▸ hx))
            · rw [if_neg hpp]
              exact hnd p
          obtain ⟨ha, hb, hc⟩ := ih
            ⟨fun q => if q = p0 then st.out q ++ [goTrimSpace line0] else st.out q,
              fun q => if q = p0 then goTrimSpace line0 :: st.seen q else st.seen q,
              fun q => if q = p0 then st.configCount q + 1 else st.configCount q,
              st.duplicateCount⟩ hseen' hnd'
          refine ⟨ha, ?_, ?_⟩
          · intro p v
            rw [hb p v]
            dsimp only
            by_cases hpp : p = p0
            · subst hpp
              rw [if_pos rfl]
              simp only [List.mem_append, List.mem_cons, List.not_mem_nil, or_false]
              constructor
              · rintro ((h | h) | ⟨hm, hp⟩)
                · exact Or.inl h
                · exact Or.inr ⟨Or.inl h, by rw [h]; exact hcl⟩
                · exact Or.inr ⟨Or.inr hm, hp⟩
              · rintro (h | ⟨heq | hm, hp⟩)
                · exact Or.inl (Or.inl h)
                · exact Or.inl (Or.inr heq)
                · exact Or.inr ⟨hm, hp⟩
            · rw [if_neg hpp]
              constructor
              · rintro (h | ⟨hm, hp⟩)
                · exact Or.inl h
                · exact Or.inr ⟨List.mem_cons_of_mem _ hm, hp⟩
              · rintro (h | ⟨hm, hp⟩)
                · exact Or.inl h
                · rcases List.mem_cons.mp hm with heq | hm'
                  · rw [heq, hcl] at hp
                    exact absurd (Option.some_injective _ hp).symm hpp
                  · exact Or.inr ⟨hm', hp⟩
          · intro p
            rw [hc p]
            dsimp only
            by_cases hpp : p = p0
            · subst hpp
              rw [if_pos rfl]
              simp only [List.filter_cons]
              rw [if_pos (by simp [hcl])]
              simp only [List.length_cons, List.length_append, List.length_nil]
              omega
            · rw [if_neg hpp]
              have hne : sortProtoOf (goTrimSpace line0) ≠ some p := by
                rw [hcl]
                intro h
                exact hpp (Option.some_injective _ h).symm
              simp only [List.filter_cons]
              rw [if_neg (by simpa using hne)]

/-! #### processLink admission helpers -/

theorem processLink_stores (s : Scanner) (dial : String → Int → Option Nat)
    (link host : String) (port : Int) (remark protocol : String)
    (hdec : decodeLink link = (host, port, remark, protocol))
    (hhost : host ≠ "") (hport : port ≠ 0)
    (henable : s.enableLatency = true)
    (hok : ¬ (measureLatency (dial host port) = -1 ∨
      measureLatency (dial host port) > 800)) :
    processLink s dial link =
      storeResult s protocol
        ⟨link, remark, measureLatency (dial host port), host, port⟩ := by
  simp only [processLink, hdec]
  rw [if_neg (by simp [hhost, hport]), if_pos henable,
    if_neg (fun hc => hok hc.2)]
  rfl

theorem processLink_excludes (s : Scanner) (dial : String → Int → Option Nat)
    (link host : String) (port : Int) (remark protocol : String)
    (hdec : decodeLink link = (host, port, remark, protocol))
    (hhost : host ≠ "") (hport : port ≠ 0)
    (henable : s.enableLatency = true)
    (hbad : measureLatency (dial host port) = -1 ∨
      measureLatency (dial host port) > 800) :
    processLink s dial link = s := by
  simp only [processLink, hdec]
  rw [if_neg (by simp [hhost, hport]), if_pos henable,
    if_pos (show _ ∧ _ from ⟨henable, hbad⟩)]

/-- C2: with latency probing enabled, a decoded record whose probe reports
150 ms is stored and its line lands in the fast subset; a record measured at
exactly 200 ms lands in normal (fast is exclusive below 200); a record whose
probe failed (-1) or exceeded the 800 ms ceiling is excluded before entering
any output set; and the fast subset contains only annotated lines of records
with latency strictly between 0 and 200. -/
theorem c2_speed_partition (s : Scanner) (dial : String → Int → Option Nat)
    (link host : String) (port : Int) (remark protocol : String)
    (G : List ConfigInfo) (c : ConfigInfo)
    (henable : s.enableLatency = true)
    (hdec : decodeLink link = (host, port, remark, protocol))
    (hhost : host ≠ "") (hport : port ≠ 0)
    (hmem : c ∈ G) :
    (measureLatency (dial host port) = 150 →
      processLink s dial link =
        storeResult s protocol ⟨link, remark, 150, host, port⟩) ∧
    (measureLatency (dial host port) = -1 ∨ measureLatency (dial host port) > 800 →
      processLink s dial link = s) ∧
    (c.Latency = 150 → annotateLine c ∈ (saveGroup G).1) ∧
    (c.Latency = 200 → annotateLine c ∈ (saveGroup G).2) ∧
    (∀ line ∈ (saveGroup G).1, ∃ c' ∈ G, c'.Latency > 0 ∧ c'.Latency < 200 ∧
      line = annotateLine c') := by
  have hmemSorted : c ∈ sortByLatency G := ((sortByLatency_perm G).mem_iff).mpr hmem
  refine ⟨?_, ?_, ?_, ?_, ?_⟩
  · intro h150
    rw [processLink_stores s dial link host port remark protocol hdec hhost hport
      henable (by rw [h150]; decide), h150]
  · intro hbad
    exact processLink_excludes s dial link host port remark protocol hdec hhost hport
      henable hbad
  · intro hlat
    unfold saveGroup
    rw [partitionLoop_eq]
    refine List.mem_filterMap.mpr ⟨c, hmemSorted, ?_⟩
    rw [hlat]
    rw [if_pos (by decide)]
  · intro hlat
    unfold saveGroup
    rw [partitionLoop_eq]
    refine List.mem_filterMap.mpr ⟨c, hmemSorted, ?_⟩
    rw [hlat]
    rw [if_pos (by decide), if_neg (by decide)]
  · intro line hline
    unfold saveGroup at hline
    rw [partitionLoop_eq] at hline
    obtain ⟨c', hc'mem, hc'⟩ := List.mem_filterMap.mp hline
    by_cases hcond : c'.Latency > 0 ∧ c'.Latency < 200
    · rw [if_pos hcond] at hc'
      exact ⟨c', ((sortByLatency_perm G).mem_iff).mp hc'mem, hcond.1, hcond.2,
        (Option.some_injective _ hc').symm⟩
    · rw [if_neg hcond] at hc'
      cases hc'

/-- Witness for C2: a concrete 150 ms probe of a trojan link is stored with
latency 150, and a concrete 150 ms record's annotated line is in the fast
subset of its group. -/
theorem c2_witness :
    processLink ⟨true, fun _ => []⟩ (fun _ _ => some 150000000)
        "trojan://pass@test.com:443" =
      storeResult ⟨true, fun _ => []⟩ "trojan"
        ⟨"trojan://pass@test.com:443", "NoRemark", 150, "test.com", 443⟩ ∧
    annotateLine ⟨"l", "r", 150, "h", 1⟩ ∈
      (saveGroup [⟨"l", "r", 150, "h", 1⟩]).1 := by
  have h := c2_speed_partition ⟨true, fun _ => []⟩ (fun _ _ => some 150000000)
    "trojan://pass@test.com:443" "test.com" 443 "NoRemark" "trojan"
    [⟨"l", "r", 150, "h", 1⟩] ⟨"l", "r", 150, "h", 1⟩ rfl (by rfl) (by decide)
    (by decide) (by simp)
  exact ⟨h.1 (by rfl), h.2.2.1 rfl⟩

/-- C10: the probe reports whole milliseconds, so a sub-millisecond success
measures 0; such a record passes the admission filter and is stored with
latency 0; and `SaveResults` then treats it exactly like an unprobed record:
its plain, unannotated line goes to the normal tier, and it can never reach
the fast tier, which holds only annotated lines of records with latency
strictly between 0 and 200. -/
theorem c10_zero_latency_normal (G : List ConfigInfo) (c : ConfigInfo)
    (s : Scanner) (dial : String → Int → Option Nat)
    (link host : String) (port : Int) (remark protocol : String) (ns : Nat)
    (hns : ns < 1000000) (hdial : dial host port = some ns)
    (henable : s.enableLatency = true)
    (hdec : decodeLink link = (host, port, remark, protocol))
    (hhost : host ≠ "") (hport : port ≠ 0)
    (hmem : c ∈ G) (hlat : c.Latency = 0) :
    measureLatency (dial host port) = 0 ∧
    processLink s dial link =
      storeResult s protocol ⟨link, remark, 0, host, port⟩ ∧
    formatLine c ∈ (saveGroup G).2 ∧
    (∀ line ∈ (saveGroup G).1, ∃ c' ∈ G, c'.Latency > 0 ∧ c'.Latency < 200 ∧
      line = annotateLine c') := by
  have hms : measureLatency (dial host port) = 0 := by
    rw [hdial]
    simp [measureLatency, Nat.div_eq_of_lt hns]
  refine ⟨hms, ?_, ?_, ?_⟩
  · rw [processLink_stores s dial link host port remark protocol hdec hhost hport
      henable (by rw [hms]; decide), hms]

  · unfold saveGroup
    rw [partitionLoop_eq]
    refine List.mem_filterMap.mpr ⟨c, ((sortByLatency_perm G).mem_iff).mpr hmem, ?_⟩
    rw [hlat]
    rw [if_neg (by decide)]
  · intro line hline
    unfold saveGroup at hline
    rw [partitionLoop_eq] at hline
    obtain ⟨c', hc'mem, hc'⟩ := List.mem_filterMap.mp hline
    by_cases hcond : c'.Latency > 0 ∧ c'.Latency < 200
    · rw [if_pos hcond] at hc'
      exact ⟨c', ((sortByLatency_perm G).mem_iff).mp hc'mem, hcond.1, hcond.2,
        (Option.some_injective _ hc').symm⟩
    · rw [if_neg hcond] at hc'
      cases hc'

/-- Witness for C10: a 999999 ns (sub-millisecond) probe measures 0 ms, and a
concrete latency-0 record's plain line is in the normal subset. -/
theorem c10_witness :
    measureLatency ((fun (_ : String) (_ : Int) => some 999999) "test.com" 443) = 0 ∧
    formatLine ⟨"l", "r", 0, "h", 1⟩ ∈ (saveGroup [⟨"l", "r", 0, "h", 1⟩]).2 := by
  have h := c10_zero_latency_normal [⟨"l", "r", 0, "h", 1⟩] ⟨"l", "r", 0, "h", 1⟩
    ⟨true, fun _ => []⟩ (fun _ _ => some 999999) "trojan://pass@test.com:443"
    "test.com" 443 "NoRemark" "trojan" 999999 (by decide) rfl rfl (by rfl)
    (by decide) (by decide) (by simp) rfl
  exact ⟨h.1, h.2.2.1⟩

/-- C9: the protocol partitioning of `sortConfigs` deduplicates within each
protocol on its own, whatever the input lines (so even if the upstream global
dedup was bypassed): each protocol's collected output is duplicate-free,
contains exactly the trimmed lines classified to it, and every classified
occurrence beyond those is tallied as a removed duplicate. -/
theorem c9_per_protocol_dedup (lines : List String) (p : String) :
    ((sortConfigs lines).out p).Nodup ∧
    (∀ v, v ∈ (sortConfigs lines).out p ↔
      v ∈ lines.map goTrimSpace ∧ sortProtoOf v = some p) ∧
    ((sortConfigs lines).out p).length + (sortConfigs lines).duplicateCount p =
      ((lines.map goTrimSpace).filter (fun v => sortProtoOf v = some p)).length := by
  obtain ⟨ha, hb, hc⟩ := sortConfigs_fold lines sortInitState
    (by intro p x; simp [sortInitState]) (by intro p; simp [sortInitState])
  refine ⟨ha p, ?_, ?_⟩
  · intro v
    simp only [sortConfigs]
    rw [hb p v]
    simp [sortInitState]
  · simp only [sortConfigs]
    rw [hc p]
    simp [sortInitState]

set_option maxRecDepth 8000 in
/-- C3 fails on the code: `SaveResults` sorts each group with `sort.Slice`
(pdqsort since Go 1.19), which is not stable. On `c3Group` the output is
ascending by latency as required, but the three records with latency 6 come
out in input order 6, 9, 3: the record `l3`, first of the ties in the input,
ends up after `l9` (and `l6`). The same flip occurs for the latency-1 pair
`l7`/`l12`. -/
theorem c3_sortSlice_unstable_at_failing_input :
    sortByLatency c3Group = c3Sorted ∧
    c3Sorted.map (fun c => c.Latency) = [1, 1, 2, 2, 3, 5, 5, 5, 6, 6, 6, 9, 10] ∧
    (⟨"l3", "r", 6, "h", 1⟩ : ConfigInfo).Latency =
      (⟨"l9", "r", 6, "h", 1⟩ : ConfigInfo).Latency ∧
    c3Group.indexOf (⟨"l3", "r", 6, "h", 1⟩ : ConfigInfo) <
      c3Group.indexOf (⟨"l9", "r", 6, "h", 1⟩ : ConfigInfo) ∧
    c3Sorted.indexOf (⟨"l9", "r", 6, "h", 1⟩ : ConfigInfo) <
      c3Sorted.indexOf (⟨"l3", "r", 6, "h", 1⟩ : ConfigInfo) := by
  refine ⟨by rfl, by rfl, by decide, by decide, by decide⟩

end V2Go
